import Mathlib

/-!
Formal model of the discrete-event simulator of `simulator.h` / `simulator.cpp`
(C++20-coroutine based simulation kernel).

The embedding is a shallow one:

* `ProcSt` mirrors `process_t` (the queue link `next`, the relative `delay`,
  and the stored coroutine continuation, modelled as a residual program `Proc`);
  the diagnostic `name` string is omitted.
* `SigSt` mirrors `signal_t` (`value`, `new_value`, `is_active`, and the
  sensitivity list `hook_list`); the active-list link `next` of a signal is
  represented by the scheduler-level list `activeSignals`, and the diagnostic
  `name` string is omitted.
* `Hook` mirrors `sensitivity_t` (owning process and edge mask).  A hook is
  created right before a process suspends in a wait and is destroyed right
  after the process is resumed, as in the `process_wait*` macros: this is the
  documented scoped-binding lifecycle of the kernel.
* `Sim` mirrors `simulator_t` (process table, event queue, active-signal list,
  current process, simulated time).  The event queue is represented as the
  list of processes obtained by following the `next` chain from `event_queue`;
  in addition every process carries its `next` field (`pnext`) as in the
  source, updated at exactly the assignment sites of the C++ code, because
  `simulator_t::run` reads `hook->process.next` as the double-activation
  guard (a pointer that can go stale after `finish`).
* machine integers: `value`, `new_value`, `delay` arguments and `time_ticks`
  are `uint64_t` in the source; they are modelled as `Nat` reduced mod `2^64`
  at the points where the C++ code can overflow (`time_ticks += delay`) or
  where a caller-supplied value enters (`set`, `delay` arguments).

Process bodies (user coroutines) are external collaborators; they interact
with the core only through `set`, `delay`, `finish`, waiting on signals and
returning.  A process body is therefore modelled as a small program `Proc`
made of exactly those interactions.
-/

namespace CoroSim

/-- Modulus of the `uint64_t` machine integers used by the simulator
(`2 ^ 64`). -/
def U64 : Nat := 18446744073709551616

/-- `POSEDGE` flag of `sensitivity_t::edge`: sensitive on positive edge. -/
def POSEDGE : Nat := 1

/-- `NEGEDGE` flag of `sensitivity_t::edge`: sensitive on negative edge. -/
def NEGEDGE : Nat := 2

/-- Index of a process in `simulator_t::all_processes` (a stable arena, so an
index is a faithful stand-in for the raw `process_t *` pointers). -/
abbrev ProcId := Nat

/-- Index of a signal (signals live at stable addresses in the demos; an index
stands for the raw `signal_t *`). -/
abbrev SigId := Nat

/-- A process body: the residual user coroutine, built from the operations the
core exposes.  `set` and `fin` are plain calls that continue the slice;
`delay` suspends after queueing the caller; `wait` creates one sensitivity
hook per `(signal, edge)` pair and suspends without queueing (the hooks are
destroyed when the process is next resumed, as in the `process_wait*`
macros); `ret` is `co_return`. -/
inductive Proc : Type where
  | ret : Proc
  | set (sig : SigId) (v : Nat) (k : Proc) : Proc
  | fin (k : Proc) : Proc
  | delay (n : Nat) (k : Proc) : Proc
  | wait (hooks : List (SigId × Nat)) (k : Proc) : Proc
deriving DecidableEq, Repr

/-- `sensitivity_t`: one binding of a process to a signal with an edge mask. -/
structure Hook where
  proc : ProcId
  edge : Nat
deriving DecidableEq, Repr

/-- `process_t`: queue link (`next`, here `pnext`; `none` is `nullptr`),
relative delay, and the stored continuation. -/
structure ProcSt where
  pnext : Option ProcId
  delay : Nat
  prog : Proc
deriving DecidableEq, Repr

/-- `signal_t`: committed value, pending value, active flag and sensitivity
list (most recently registered hook first, as `hook_list` is a push-front
list). -/
structure SigSt where
  value : Nat
  newValue : Nat
  isActive : Bool
  hookList : List Hook
deriving DecidableEq, Repr

/-- `simulator_t`: the process arena, the event queue (head first, the list of
nodes reachable from `event_queue` through `next`), the active-signal list
(head first), current process and the simulated clock. -/
structure Sim where
  procs : List ProcSt
  sigs : List SigSt
  queue : List ProcId
  activeSignals : List SigId
  time : Nat
  cur : Option ProcId
deriving DecidableEq, Repr

/-- Default process record (only used for out-of-range indices). -/
def defProc : ProcSt := { pnext := none, delay := 0, prog := Proc.ret }

/-- Default signal record (only used for out-of-range indices). -/
def defSig : SigSt := { value := 0, newValue := 0, isActive := false, hookList := [] }

/-- Read a process record. -/
def procOf (procs : List ProcSt) (p : ProcId) : ProcSt := procs.getD p defProc

/-- Read a signal record. -/
def sigOf (sigs : List SigSt) (sg : SigId) : SigSt := sigs.getD sg defSig

/-- Observable scheduler events, recorded for specification purposes only
(ghost trace; the C++ code has matching commented-out log statements):
a settlement pass ran (with the clock reading at that moment), the clock
advanced by a nonzero delta, a process was resumed (with the clock reading at
its resumption). -/
inductive Ev : Type where
  | settled (clock : Nat) : Ev
  | advanced (d : Nat) : Ev
  | resumed (p : ProcId) (clock : Nat) : Ev
deriving DecidableEq, Repr

/-- The edge test of the settlement loop in `simulator_t::run`: a hook is
skipped (`continue`) when the `POSEDGE` bit is set but the signal is not
rising (`value != 0 || new_value == 0`), or when the `NEGEDGE` bit is set but
the signal is not falling (`value == 0 || new_value != 0`); otherwise the
hook fires. -/
def edgeFire (edge v nv : Nat) : Bool :=
  if edge &&& POSEDGE ≠ 0 ∧ (v ≠ 0 ∨ nv = 0) then false
  else if edge &&& NEGEDGE ≠ 0 ∧ (v = 0 ∨ nv ≠ 0) then false
  else true

/-- Push a process on the event-queue head:
`hook->process.next = event_queue; event_queue = &hook->process;`. -/
def enqueueHead (s : Sim) (p : ProcId) : Sim :=
  { s with
    procs := s.procs.set p { procOf s.procs p with pnext := s.queue.head? },
    queue := p :: s.queue }

/-- The inner hook loop of settlement: for each hook of the signal (in list
order), if the owning process's queue link is null, apply the edge test to
the signal's old committed value `v` and pending value `nv`, and on a fire
push the process on the event-queue head.  `v` and `nv` are passed in once:
the loop body never writes the signal, so the per-iteration loads
`active_signals->value` / `active_signals->new_value` always read these same
values. -/
def hookPass (v nv : Nat) : List Hook → Sim → Sim
  | [], s => s
  | h :: rest, s =>
      hookPass v nv rest
        (if (procOf s.procs h.proc).pnext = none then
          if edgeFire h.edge v nv then enqueueHead s h.proc else s
        else s)

/-- One iteration of the settlement `while` loop: run the hook pass for the
signal, then commit (`value = new_value`), clear the active flag and unlink
from the active list (the unlink is the caller consuming the list element;
the signal's own `next` link is represented by the list itself). -/
def settleOne (s : Sim) (sg : SigId) : Sim :=
  let sig := sigOf s.sigs sg
  let s1 := hookPass sig.value sig.newValue sig.hookList s
  { s1 with
    sigs := s1.sigs.set sg
      { sigOf s1.sigs sg with value := (sigOf s1.sigs sg).newValue, isActive := false } }

/-- Drain a snapshot of the active-signal list in order.  Nothing during
settlement appends to the active list (writes only happen inside process
bodies), so draining the snapshot equals the source's destructive
`while (active_signals != nullptr)` walk. -/
def settleList : List SigId → Sim → Sim
  | [], s => s
  | sg :: rest, s => settleList rest (settleOne s sg)

/-- Delta-cycle settlement: drain the whole active-signal list. -/
def settleSignals (s : Sim) : Sim :=
  settleList s.activeSignals { s with activeSignals := [] }

/-- `simulator_t::set`: record the pending value; if it differs from the
committed value and the signal is not already active, mark it active and push
it on the active-signal list head. -/
def setSignal (s : Sim) (sg : SigId) (v0 : Nat) : Sim :=
  let v := v0 % U64
  let sig := sigOf s.sigs sg
  if v ≠ sig.value ∧ sig.isActive = false then
    { s with
      sigs := s.sigs.set sg { sig with newValue := v, isActive := true },
      activeSignals := sg :: s.activeSignals }
  else
    { s with sigs := s.sigs.set sg { sig with newValue := v } }

/-- `simulator_t::finish`: `event_queue = nullptr;`.  Only the queue head is
cleared; the `next` links of formerly queued processes, the signals and the
active list are left as they are. -/
def finishSim (s : Sim) : Sim := { s with queue := [] }

/-- The insertion walk of `simulator_t::delay` on the event queue.  At a node
with relative delay `d`: if `d > n` the node's delay is decremented by `n`
and the caller is inserted before it with delay `n` and `next` link to it;
otherwise `d` is consumed from `n` (when `d > 0`) and the walk continues; on
list exhaustion the caller is appended with the remaining `n` and null link.
Returns the new queue and process table.  The predecessor link write
`*que_ptr = cur_proc` is rendered by storing, at each visited node, its
successor in the resulting list (for nodes before the insertion point that
successor is unchanged, so only the actual predecessor's link changes, as in
the source). -/
def insertGo (cur : ProcId) : Nat → List ProcId → List ProcSt → List ProcId × List ProcSt
  | n, [], procs =>
      ([cur], procs.set cur { procOf procs cur with delay := n, pnext := none })
  | n, p :: rest, procs =>
      let d := (procOf procs p).delay
      if d > n then
        (cur :: p :: rest,
          (procs.set p { procOf procs p with delay := d - n }).set cur
            { procOf (procs.set p { procOf procs p with delay := d - n }) cur with
              delay := n, pnext := some p })
      else
        let n1 := if d > 0 then n - d else n
        let res := insertGo cur n1 rest procs
        (p :: res.1, res.2.set p { procOf res.2 p with pnext := res.1.head? })

/-- `simulator_t::delay`: queue the current process after `n0` clock ticks
(the argument is a `uint64_t`, hence the reduction mod `2^64`). -/
def delayCall (s : Sim) (p : ProcId) (n0 : Nat) : Sim :=
  let n := n0 % U64
  let res := insertGo p n s.queue s.procs
  { s with queue := res.1, procs := res.2 }

/-- Store a new continuation for a process. -/
def setProg (s : Sim) (p : ProcId) (k : Proc) : Sim :=
  { s with procs := s.procs.set p { procOf s.procs p with prog := k } }

/-- Create the hooks of a wait: one `sensitivity_t` per `(signal, edge)` pair,
in order, each pushed on the front of its signal's `hook_list` (the
constructor does `next = sig.hook_list; sig.hook_list = this;`). -/
def addHooks (s : Sim) (p : ProcId) : List (SigId × Nat) → Sim
  | [] => s
  | (sg, e) :: rest =>
      addHooks
        { s with
          sigs := s.sigs.set sg
            { sigOf s.sigs sg with hookList := { proc := p, edge := e } :: (sigOf s.sigs sg).hookList } }
        p rest

/-- Destroy all hooks owned by a process: the `sensitivity_t` destructors run
right after the process is resumed (scope exit of the wait).  Unlinking from
the doubly-linked `hook_list` preserves the relative order of the remaining
hooks, which is what the filter does. -/
def stripHooks (s : Sim) (p : ProcId) : Sim :=
  { s with
    sigs := s.sigs.map fun sig => { sig with hookList := sig.hookList.filter fun h => h.proc ≠ p } }

/-- Run one slice of a process body: the resumed coroutine executes until it
suspends (at a `delay` or a `wait`), or returns.  `set` and `fin` are plain
calls inside the slice. -/
def runSlice (s : Sim) (p : ProcId) : Proc → Sim
  | Proc.ret => setProg s p Proc.ret
  | Proc.set sg v k => runSlice (setSignal s sg v) p k
  | Proc.fin k => runSlice (finishSim s) p k
  | Proc.delay n k => delayCall (setProg s p k) p n
  | Proc.wait hs k => addHooks (setProg s p k) p hs

/-- The dequeue-and-resume part of one loop iteration of `simulator_t::run`:
pop the queue head, clear its queue link, advance the clock by its relative
delay if nonzero (`uint64_t` addition, mod `2^64`), and resume it, which
first destroys the hooks of the wait it was suspended in (if any) and then
runs the next slice of its body. -/
def dequeueResume (s1 : Sim) : Sim × List Ev :=
  match s1.queue with
  | [] => (s1, [])
  | c :: rest =>
      let st2 : Sim :=
        { s1 with
          queue := rest, cur := some c,
          procs := s1.procs.set c { procOf s1.procs c with pnext := none } }
      let d := (procOf st2.procs c).delay
      let st3 := if d ≠ 0 then { st2 with time := (st2.time + d) % U64 } else st2
      let ev2 : List Ev := if d ≠ 0 then [Ev.advanced d] else []
      let st4 := stripHooks st3 c
      let st5 := runSlice st4 c (procOf st4.procs c).prog
      (st5, ev2 ++ [Ev.resumed c st3.time])

/-- One iteration of the `while (event_queue != nullptr)` loop of
`simulator_t::run`: if the head's relative delay is nonzero, run delta-cycle
settlement first; then dequeue and resume the (possibly new) head.  Returns
the new state and the ghost event trace of the iteration. -/
def runStep (s : Sim) : Sim × List Ev :=
  match s.queue with
  | [] => (s, [])
  | h :: _ =>
      if (procOf s.procs h).delay ≠ 0 then
        ((dequeueResume (settleSignals s)).1,
          Ev.settled s.time :: (dequeueResume (settleSignals s)).2)
      else dequeueResume s

/-- Fuel-indexed run loop: iterate `runStep` while the queue is non-empty,
collecting the ghost trace. -/
def runLoop : Sim → Nat → Sim × List Ev
  | s, 0 => (s, [])
  | s, fuel + 1 =>
      match s.queue with
      | [] => (s, [])
      | _ :: _ =>
          let r1 := runStep s
          let r2 := runLoop r1.1 fuel
          (r2.1, r1.2 ++ r2.2)

/-- Initial process record: `make_process` allocates the descriptor and
lazy-starts the coroutine (`initial_suspend` is `suspend_always`, so the body
has not run; the continuation is the whole body). -/
def initProc (pr : Proc) : ProcSt := { pnext := none, delay := 0, prog := pr }

/-- Initial signal record: `signal_t(name, v)` sets both `value` and
`new_value` to `v`. -/
def initSig (v : Nat) : SigSt :=
  { value := v % U64, newValue := v % U64, isActive := false, hookList := [] }

/-- Scheduler state after construction and registration: signals with their
initial values, processes with their bodies, everything else empty. -/
def initSim (sigVals : List Nat) (progs : List Proc) : Sim :=
  { procs := progs.map initProc, sigs := sigVals.map initSig,
    queue := [], activeSignals := [], time := 0, cur := none }

/-- The initial enqueue phase of `simulator_t::run`: every process, in
registration order, is pushed on the event-queue head
(`proc.next = event_queue; event_queue = &proc;`). -/
def buildQueue : List ProcId → Sim → Sim
  | [], s => s
  | i :: rest, s =>
      buildQueue rest
        { s with
          procs := s.procs.set i { procOf s.procs i with pnext := s.queue.head? },
          queue := i :: s.queue }

/-- `simulator_t::run` on a freshly assembled simulation: enqueue all
registered processes, then run the loop (with the given fuel). -/
def simRun (sigVals : List Nat) (progs : List Proc) (fuel : Nat) : Sim × List Ev :=
  runLoop (buildQueue (List.range progs.length) (initSim sigVals progs)) fuel

/-- Iterated `runStep`, used to speak about every scheduler state a run
reaches at an iteration boundary. -/
def stepN : Sim → Nat → Sim
  | s, 0 => s
  | s, n + 1 => stepN (runStep s).1 n

/-- The scheduler state reached after `n` loop iterations of a run of the
given simulation. -/
def reachState (sigVals : List Nat) (progs : List Proc) (n : Nat) : Sim :=
  stepN (buildQueue (List.range progs.length) (initSim sigVals progs)) n

/-- Total of the clock advances recorded in a trace: the relative delays
actually consumed along the executed path (`time_ticks += cur_proc->delay`
happens exactly once per `advanced` event). -/
def sumAdv : List Ev → Nat
  | [] => 0
  | Ev.advanced d :: rest => d + sumAdv rest
  | _ :: rest => sumAdv rest

/-- Clock readings at the process resumptions of a trace, in order. -/
def resumedClocks : List Ev → List Nat
  | [] => []
  | Ev.resumed _ t :: rest => t :: resumedClocks rest
  | _ :: rest => resumedClocks rest

/-- Clock readings at the settlement passes of a trace, in order. -/
def settledClocks : List Ev → List Nat
  | [] => []
  | Ev.settled t :: rest => t :: settledClocks rest
  | _ :: rest => settledClocks rest

/-- Absolute wake offset of a queued process: the sum of the relative delays
of the queue nodes up to and including (the first occurrence of) the process;
this is the number of ticks of advancement before the process is dequeued
(spec §4.1: summing deltas along a prefix yields absolute time from now). -/
def wakeOffset (procs : List ProcSt) : List ProcId → ProcId → Nat
  | [], _ => 0
  | q :: rest, p =>
      if q = p then (procOf procs q).delay
      else (procOf procs q).delay + wakeOffset procs rest p

/-- Clock advancement recorded before the first resumption of a given
process in a trace: `some n` when the process is resumed after exactly `n`
ticks of advancement, `none` when it is never resumed in the trace. -/
def advUntil (p : ProcId) : List Ev → Option Nat
  | [] => none
  | Ev.resumed q _ :: rest => if q = p then some 0 else advUntil p rest
  | Ev.advanced d :: rest => (advUntil p rest).map (d + ·)
  | Ev.settled _ :: rest => advUntil p rest

/-- All sensitivity hooks currently registered, over all signals. -/
def allHooks (s : Sim) : List Hook := (s.sigs.map SigSt.hookList).flatten

/-- The process owns no sensitivity hook (it is not suspended in a wait). -/
def hookFree (s : Sim) (p : ProcId) : Prop := ∀ h ∈ allHooks s, h.proc ≠ p

/-- Soundness of the double-activation guard: whenever a hook owner's queue
link is null, the owner really is not in the event queue.  (The guard of
`simulator_t::run` reads `hook->process.next == nullptr` as "not queued";
this is the structural invariant making that reading correct.) -/
def guardSound (s : Sim) : Prop :=
  ∀ h ∈ allHooks s, (procOf s.procs h.proc).pnext = none → h.proc ∉ s.queue

/-- Hook owners are valid indices of the process arena. -/
def hookIdx (s : Sim) : Prop := ∀ h ∈ allHooks s, h.proc < s.procs.length

/-- Queue members are valid indices of the process arena. -/
def queueIdx (s : Sim) : Prop := ∀ p ∈ s.queue, p < s.procs.length

/-- Structural scheduler invariant, established at `run()` entry and preserved
by every loop iteration: the event queue has no duplicate, the
double-activation guard is sound, and all process references are valid. -/
def Inv (s : Sim) : Prop := s.queue.Nodup ∧ guardSound s ∧ hookIdx s ∧ queueIdx s

/-- Example (claim C1): process 0 waits for any change of signals 0 and 1;
process 1 writes both signals in the same cycle, then delays one tick. -/
def exC1progs : List Proc :=
  [Proc.wait [(0, 0), (1, 0)] Proc.ret,
   Proc.set 0 1 (Proc.set 1 1 (Proc.delay 1 Proc.ret))]

/-- Example (claim C2): process 0 waits for any change of signal 0 and, once
woken, writes signal 1; process 1 writes signal 0 and delays one tick.  The
wake of process 0 creates a second delta wave at the same wake time. -/
def exC2progs : List Proc :=
  [Proc.wait [(0, 0)] (Proc.set 1 1 Proc.ret),
   Proc.set 0 1 (Proc.delay 1 Proc.ret)]

/-- Example (claim C2, stale delay): process 0 delays five ticks, then waits
on signal 0; process 1 delays six ticks, writes signal 0 and delays once
more.  When settlement wakes process 0 at tick 6, its `delay` field still
holds the stale 5 of the earlier `delay(5)` call — nothing resets it. -/
def exC2bprogs : List Proc :=
  [Proc.delay 5 (Proc.wait [(0, 0)] Proc.ret),
   Proc.delay 6 (Proc.set 0 1 (Proc.delay 1 Proc.ret))]

/-- Example (claim C3): a scheduler state in mid-run shape: signal 0 is
active and rising (committed 0, pending 1) and watched by process 0 through
a both-edges hook (`POSEDGE|NEGEDGE`); process 1 is queued with delay 1. -/
def exC3state : Sim :=
  { procs := [initProc Proc.ret, { pnext := none, delay := 1, prog := Proc.ret }],
    sigs := [{ value := 0, newValue := 1, isActive := true,
               hookList := [{ proc := 0, edge := 3 }] }],
    queue := [1], activeSignals := [0], time := 0, cur := none }

/-- Example (claim C4): signal 0 is active and rising and watched by a
rising-only hook of the unqueued process 0; process 1 is queued. -/
def exC4state : Sim :=
  { procs := [initProc Proc.ret, { pnext := none, delay := 1, prog := Proc.ret }],
    sigs := [{ value := 0, newValue := 1, isActive := true,
               hookList := [{ proc := 0, edge := 1 }] }],
    queue := [1], activeSignals := [0], time := 0, cur := none }

/-- Example (claim C5): process 0 waits for any change of signal 0; process 1
writes 1 then 0 back (coalescing to a no-op) in one cycle, then delays. -/
def exC5progs : List Proc :=
  [Proc.wait [(0, 0)] Proc.ret,
   Proc.set 0 1 (Proc.set 0 0 (Proc.delay 1 Proc.ret))]

/-- Example (claim C6): one process writes signal 0 twice (1 then 2) in the
same cycle, then delays so the write settles. -/
def exC6progs : List Proc :=
  [Proc.set 0 1 (Proc.set 0 2 (Proc.delay 1 Proc.ret))]

/-- Example (claim C7): one process delays `2^64 - 2` ticks, then 3 more. -/
def exC7progs : List Proc :=
  [Proc.delay 18446744073709551614 (Proc.delay 3 Proc.ret)]

/-- Example state (claim C7): process 0 queued five ticks out; process 2
(idle, valid index) is about to call `delay`. -/
def exC7dstate : Sim :=
  { procs := [{ pnext := none, delay := 5, prog := Proc.ret }, initProc Proc.ret,
      initProc Proc.ret],
    sigs := [], queue := [0], activeSignals := [], time := 0, cur := none }

/-- Example (claim C8): two processes which each delay one tick at time 0 and
are hence both due at tick 1. -/
def exC8progs : List Proc :=
  [Proc.delay 1 Proc.ret, Proc.delay 1 Proc.ret]

/-- Example (claim C8): three registered processes, each initially delaying 0
ticks (the spec's P1, P2, P3 test). -/
def exC8bprogs : List Proc :=
  [Proc.delay 0 Proc.ret, Proc.delay 0 Proc.ret, Proc.delay 0 Proc.ret]

/-- Example (claim C9): one process delays `2^64 - 1` ticks, then 2 more, so
the 64-bit clock wraps. -/
def exC9progs : List Proc :=
  [Proc.delay 18446744073709551615 (Proc.delay 2 Proc.ret)]

/-- Example (claim C10): one process writes signal 0 and immediately requests
termination, leaving the write pending. -/
def exC10progs : List Proc := [Proc.set 0 5 (Proc.fin Proc.ret)]

/-! ## Basic lemmas about indexed reads and writes -/

theorem getD_set_self {α : Type} (l : List α) (i : Nat) (a d : α) (h : i < l.length) :
    (l.set i a).getD i d = a := by
  simp [List.getD, List.getElem?_set, h]

theorem getD_set_ne {α : Type} (l : List α) (i j : Nat) (a d : α) (h : i ≠ j) :
    (l.set i a).getD j d = l.getD j d := by
  simp [List.getD, List.getElem?_set, h]

theorem procOf_set_self (procs : List ProcSt) (p : ProcId) (a : ProcSt)
    (h : p < procs.length) : procOf (procs.set p a) p = a :=
  getD_set_self procs p a defProc h

theorem procOf_set_ne (procs : List ProcSt) (p q : ProcId) (a : ProcSt)
    (h : p ≠ q) : procOf (procs.set p a) q = procOf procs q :=
  getD_set_ne procs p q a defProc h

theorem sigOf_set_self (sigs : List SigSt) (sg : SigId) (a : SigSt)
    (h : sg < sigs.length) : sigOf (sigs.set sg a) sg = a :=
  getD_set_self sigs sg a defSig h

theorem sigOf_set_ne (sigs : List SigSt) (sg sg2 : SigId) (a : SigSt)
    (h : sg ≠ sg2) : sigOf (sigs.set sg a) sg2 = sigOf sigs sg2 :=
  getD_set_ne sigs sg sg2 a defSig h

/-- Setting a process record never changes any process's `delay` when the new
record keeps the old delay (covers both the in-range and the out-of-range
no-op case). -/
theorem procOf_set_delay (procs : List ProcSt) (p q : ProcId)
    (f : ProcSt → ProcSt) (hf : ∀ x, (f x).delay = x.delay) :
    (procOf (procs.set p (f (procOf procs p))) q).delay = (procOf procs q).delay := by
  by_cases hpq : p = q
  · subst hpq
    by_cases hl : p < procs.length
    · rw [procOf_set_self _ _ _ hl, hf]
    · rw [List.set_eq_of_length_le (Nat.le_of_not_lt hl)]
  · rw [procOf_set_ne _ _ _ _ hpq]

/-- Analog of `procOf_set_delay` for the `pnext` field. -/
theorem procOf_set_pnext (procs : List ProcSt) (p q : ProcId)
    (f : ProcSt → ProcSt) (hf : ∀ x, (f x).pnext = x.pnext) :
    (procOf (procs.set p (f (procOf procs p))) q).pnext = (procOf procs q).pnext := by
  by_cases hpq : p = q
  · subst hpq
    by_cases hl : p < procs.length
    · rw [procOf_set_self _ _ _ hl, hf]
    · rw [List.set_eq_of_length_le (Nat.le_of_not_lt hl)]
  · rw [procOf_set_ne _ _ _ _ hpq]

/-! ## Frame lemmas for the elementary operations -/

theorem enqueueHead_queue (s : Sim) (p : ProcId) :
    (enqueueHead s p).queue = p :: s.queue := rfl

theorem enqueueHead_sigs (s : Sim) (p : ProcId) : (enqueueHead s p).sigs = s.sigs := rfl

theorem enqueueHead_time (s : Sim) (p : ProcId) : (enqueueHead s p).time = s.time := rfl

theorem enqueueHead_activeSignals (s : Sim) (p : ProcId) :
    (enqueueHead s p).activeSignals = s.activeSignals := rfl

theorem enqueueHead_procs_length (s : Sim) (p : ProcId) :
    (enqueueHead s p).procs.length = s.procs.length := by
  simp [enqueueHead]

theorem enqueueHead_delay (s : Sim) (p q : ProcId) :
    (procOf (enqueueHead s p).procs q).delay = (procOf s.procs q).delay :=
  procOf_set_delay s.procs p q (fun x => { x with pnext := s.queue.head? }) (fun _ => rfl)

theorem enqueueHead_pnext_ne (s : Sim) (p q : ProcId) (h : p ≠ q) :
    (procOf (enqueueHead s p).procs q).pnext = (procOf s.procs q).pnext := by
  simp only [enqueueHead]
  rw [procOf_set_ne _ _ _ _ h]

theorem enqueueHead_pnext_self (s : Sim) (p : ProcId) (h : p < s.procs.length) :
    (procOf (enqueueHead s p).procs p).pnext = s.queue.head? := by
  simp only [enqueueHead]
  rw [procOf_set_self _ _ _ h]

/-- The hook pass touches only the queue and the `pnext` links. -/
theorem hookPass_sigs (v nv : Nat) :
    ∀ (l : List Hook) (s : Sim), (hookPass v nv l s).sigs = s.sigs := by
  intro l
  induction l with
  | nil => intro s; rfl
  | cons h rest ih =>
      intro s
      simp only [hookPass]
      rw [ih]
      split
      · split
        · exact enqueueHead_sigs s h.proc
        · rfl
      · rfl

theorem hookPass_time (v nv : Nat) :
    ∀ (l : List Hook) (s : Sim), (hookPass v nv l s).time = s.time := by
  intro l
  induction l with
  | nil => intro s; rfl
  | cons h rest ih =>
      intro s
      simp only [hookPass]
      rw [ih]
      split
      · split
        · exact enqueueHead_time s h.proc
        · rfl
      · rfl

theorem hookPass_activeSignals (v nv : Nat) :
    ∀ (l : List Hook) (s : Sim), (hookPass v nv l s).activeSignals = s.activeSignals := by
  intro l
  induction l with
  | nil => intro s; rfl
  | cons h rest ih =>
      intro s
      simp only [hookPass]
      rw [ih]
      split
      · split
        · exact enqueueHead_activeSignals s h.proc
        · rfl
      · rfl

theorem hookPass_delay (v nv : Nat) :
    ∀ (l : List Hook) (s : Sim) (q : ProcId),
      (procOf (hookPass v nv l s).procs q).delay = (procOf s.procs q).delay := by
  intro l
  induction l with
  | nil => intro s q; rfl
  | cons h rest ih =>
      intro s q
      simp only [hookPass]
      rw [ih]
      split
      · split
        · exact enqueueHead_delay s h.proc q
        · rfl
      · rfl

theorem hookPass_procs_length (v nv : Nat) :
    ∀ (l : List Hook) (s : Sim),
      (hookPass v nv l s).procs.length = s.procs.length := by
  intro l
  induction l with
  | nil => intro s; rfl
  | cons h rest ih =>
      intro s
      simp only [hookPass]
      rw [ih]
      split
      · split
        · exact enqueueHead_procs_length s h.proc
        · rfl
      · rfl

/-- The hook pass only pushes processes on the queue head: the new queue is
an extension of the old one, and every new element is the owner of a hook in
the visited list. -/
theorem hookPass_ext (v nv : Nat) :
    ∀ (l : List Hook) (s : Sim),
      ∃ pre, (hookPass v nv l s).queue = pre ++ s.queue ∧
        ∀ r ∈ pre, ∃ h ∈ l, h.proc = r := by
  intro l
  induction l with
  | nil => intro s; exact ⟨[], rfl, by simp⟩
  | cons h rest ih =>
      intro s
      simp only [hookPass]
      by_cases hg : (procOf s.procs h.proc).pnext = none
      · by_cases hf : edgeFire h.edge v nv
        · simp only [hg, hf, if_pos, if_true]
          obtain ⟨pre, hq, hmem⟩ := ih (enqueueHead s h.proc)
          refine ⟨pre ++ [h.proc], by simpa [enqueueHead_queue] using hq, ?_⟩
          intro r hr
          rcases List.mem_append.1 hr with hr | hr
          · obtain ⟨h2, h2mem, h2eq⟩ := hmem r hr
            exact ⟨h2, List.mem_cons_of_mem _ h2mem, h2eq⟩
          · simp at hr
            exact ⟨h, List.mem_cons_self _ _, hr.symm⟩
        · simp only [hg, if_pos, hf, if_false]
          obtain ⟨pre, hq, hmem⟩ := ih s
          exact ⟨pre, hq, fun r hr =>
            (hmem r hr).elim fun h2 h2h => ⟨h2, List.mem_cons_of_mem _ h2h.1, h2h.2⟩⟩
      · simp only [hg, if_neg, if_false]
        obtain ⟨pre, hq, hmem⟩ := ih s
        exact ⟨pre, hq, fun r hr =>
          (hmem r hr).elim fun h2 h2h => ⟨h2, List.mem_cons_of_mem _ h2h.1, h2h.2⟩⟩

/-! ## Frame lemmas for settlement -/

theorem settleOne_time (s : Sim) (sg : SigId) : (settleOne s sg).time = s.time := by
  simp only [settleOne]
  exact hookPass_time _ _ _ _

theorem settleOne_activeSignals (s : Sim) (sg : SigId) :
    (settleOne s sg).activeSignals = s.activeSignals := by
  simp only [settleOne]
  exact hookPass_activeSignals _ _ _ _

theorem settleOne_delay (s : Sim) (sg : SigId) (q : ProcId) :
    (procOf (settleOne s sg).procs q).delay = (procOf s.procs q).delay := by
  simp only [settleOne]
  exact hookPass_delay _ _ _ _ _

theorem settleOne_procs_length (s : Sim) (sg : SigId) :
    (settleOne s sg).procs.length = s.procs.length := by
  simp only [settleOne]
  exact hookPass_procs_length _ _ _ _

/-- The settlement commit of one signal preserves every signal's hook list
(only `value` and `is_active` are written). -/
theorem settleOne_hookList (s : Sim) (sg sg2 : SigId) :
    (sigOf (settleOne s sg).sigs sg2).hookList = (sigOf s.sigs sg2).hookList := by
  simp only [settleOne, hookPass_sigs]
  by_cases h : sg = sg2
  · subst h
    by_cases hl : sg < s.sigs.length
    · rw [sigOf_set_self _ _ _ hl]
    · rw [List.set_eq_of_length_le (Nat.le_of_not_lt hl)]
  · rw [sigOf_set_ne _ _ _ _ h]

/-- Settling one signal leaves every other signal's record untouched. -/
theorem settleOne_sig_ne (s : Sim) (sg sg2 : SigId) (h : sg ≠ sg2) :
    sigOf (settleOne s sg).sigs sg2 = sigOf s.sigs sg2 := by
  simp only [settleOne, hookPass_sigs]
  rw [sigOf_set_ne _ _ _ _ h]

/-- The settlement commit: after its hook pass, the signal's committed value
becomes the pending value and the active flag is cleared, and this happens
only after the hook pass (which evaluated all hooks against the old value). -/
theorem settleOne_commit (s : Sim) (sg : SigId) (hl : sg < s.sigs.length) :
    (sigOf (settleOne s sg).sigs sg).value = (sigOf s.sigs sg).newValue ∧
    (sigOf (settleOne s sg).sigs sg).newValue = (sigOf s.sigs sg).newValue ∧
    (sigOf (settleOne s sg).sigs sg).isActive = false := by
  simp only [settleOne, hookPass_sigs]
  rw [sigOf_set_self _ _ _ hl]
  exact ⟨rfl, rfl, rfl⟩

theorem settleList_time : ∀ (l : List SigId) (s : Sim), (settleList l s).time = s.time := by
  intro l
  induction l with
  | nil => intro s; rfl
  | cons sg rest ih => intro s; simp only [settleList]; rw [ih, settleOne_time]

theorem settleList_activeSignals :
    ∀ (l : List SigId) (s : Sim), (settleList l s).activeSignals = s.activeSignals := by
  intro l
  induction l with
  | nil => intro s; rfl
  | cons sg rest ih => intro s; simp only [settleList]; rw [ih, settleOne_activeSignals]

theorem settleList_delay :
    ∀ (l : List SigId) (s : Sim) (q : ProcId),
      (procOf (settleList l s).procs q).delay = (procOf s.procs q).delay := by
  intro l
  induction l with
  | nil => intro s q; rfl
  | cons sg rest ih => intro s q; simp only [settleList]; rw [ih, settleOne_delay]

theorem settleList_procs_length :
    ∀ (l : List SigId) (s : Sim), (settleList l s).procs.length = s.procs.length := by
  intro l
  induction l with
  | nil => intro s; rfl
  | cons sg rest ih => intro s; simp only [settleList]; rw [ih, settleOne_procs_length]

theorem settleList_hookList :
    ∀ (l : List SigId) (s : Sim) (sg2 : SigId),
      (sigOf (settleList l s).sigs sg2).hookList = (sigOf s.sigs sg2).hookList := by
  intro l
  induction l with
  | nil => intro s sg2; rfl
  | cons sg rest ih => intro s sg2; simp only [settleList]; rw [ih, settleOne_hookList]

/-- Settling one signal only pushes hook owners of that signal on the queue
head. -/
theorem settleOne_ext (s : Sim) (sg : SigId) :
    ∃ pre, (settleOne s sg).queue = pre ++ s.queue ∧
      ∀ r ∈ pre, ∃ h ∈ (sigOf s.sigs sg).hookList, h.proc = r := by
  simp only [settleOne]
  exact hookPass_ext _ _ _ _

/-- Draining a list of signals only pushes owners of hooks of the drained
signals (with the hook lists as they are at the start of the drain: hook
lists never change during settlement). -/
theorem settleList_ext :
    ∀ (l : List SigId) (s : Sim),
      ∃ pre, (settleList l s).queue = pre ++ s.queue ∧
        ∀ r ∈ pre, ∃ sg ∈ l, ∃ h ∈ (sigOf s.sigs sg).hookList, h.proc = r := by
  intro l
  induction l with
  | nil => intro s; exact ⟨[], rfl, by simp⟩
  | cons sg rest ih =>
      intro s
      simp only [settleList]
      obtain ⟨pre1, hq1, hmem1⟩ := settleOne_ext s sg
      obtain ⟨pre2, hq2, hmem2⟩ := ih (settleOne s sg)
      refine ⟨pre2 ++ pre1, by rw [hq2, hq1, List.append_assoc], ?_⟩
      intro r hr
      rcases List.mem_append.1 hr with hr | hr
      · obtain ⟨sg2, hsg2, h2, h2mem, h2eq⟩ := hmem2 r hr
        rw [settleOne_hookList] at h2mem
        exact ⟨sg2, List.mem_cons_of_mem _ hsg2, h2, h2mem, h2eq⟩
      · obtain ⟨h2, h2mem, h2eq⟩ := hmem1 r hr
        exact ⟨sg, List.mem_cons_self _ _, h2, h2mem, h2eq⟩

theorem settleSignals_ext (s : Sim) :
    ∃ pre, (settleSignals s).queue = pre ++ s.queue ∧
      ∀ r ∈ pre, ∃ sg ∈ s.activeSignals, ∃ h ∈ (sigOf s.sigs sg).hookList, h.proc = r := by
  simp only [settleSignals]
  exact settleList_ext s.activeSignals { s with activeSignals := [] }

theorem settleSignals_time (s : Sim) : (settleSignals s).time = s.time := by
  simp only [settleSignals]
  exact settleList_time _ _

theorem settleSignals_delay (s : Sim) (q : ProcId) :
    (procOf (settleSignals s).procs q).delay = (procOf s.procs q).delay := by
  simp only [settleSignals]
  exact settleList_delay _ _ _

theorem settleSignals_procs_length (s : Sim) :
    (settleSignals s).procs.length = s.procs.length := by
  simp only [settleSignals]
  exact settleList_procs_length _ _

/-- Settlement keeps the queue non-empty (it only pushes on its head). -/
theorem settleSignals_queue_nonempty (s : Sim) (h : s.queue ≠ []) :
    (settleSignals s).queue ≠ [] := by
  obtain ⟨pre, hq, -⟩ := settleSignals_ext s
  rw [hq]
  intro hc
  exact h (List.append_eq_nil.mp hc).2

/-- C3: the claim states that a binding with both edge bits set
(`POSEDGE|NEGEDGE`) fires whenever the rising or the falling condition holds.
The code applies both skip tests in sequence, so such a binding fires only
when the rising and falling conditions hold simultaneously, which is
impossible: it never fires.  In particular at the failing input — signal
committed 0, pending 1 (rising), a both-edges hook of unqueued process 0 —
settlement enqueues nothing (the queue stays `[1]`) although the claim (and
the constructor's documentation "sensitive to the specified edge (positive
or negative or both)") requires process 0 to be woken; the signal still
commits to 1. -/
theorem c3_both_edges_never_fires :
    (∀ v nv : Nat, edgeFire (POSEDGE ||| NEGEDGE) v nv = false) ∧
    edgeFire (POSEDGE ||| NEGEDGE) 0 1 = false ∧
    (settleSignals exC3state).queue = [1] ∧
    (sigOf (settleSignals exC3state).sigs 0).value = 1 := by
  refine ⟨?_, by decide, by decide, by decide⟩
  intro v nv
  by_cases hv : v = 0 <;> by_cases hn : nv = 0 <;>
    simp [edgeFire, POSEDGE, NEGEDGE, hv, hn]

/-- C10: `finish` clears only the event-queue head: signals (committed and
pending values, pending flags, hook lists), the active-signal list, the
process table, the clock and the current-process pointer are all unchanged.
With the queue empty the run loop exits immediately without touching
anything, so a pending write that has not reached a settlement is never
committed after `run()` exits via `finish`: in the concrete run of
`exC10progs`, signal 0 still reads its committed value 0, keeps the pending
value 5 uncommitted, and remains marked active on the active list. -/
theorem c10_finish_frame :
    (∀ s : Sim, (finishSim s).queue = [] ∧ (finishSim s).sigs = s.sigs ∧
      (finishSim s).activeSignals = s.activeSignals ∧ (finishSim s).procs = s.procs ∧
      (finishSim s).time = s.time ∧ (finishSim s).cur = s.cur) ∧
    (∀ (s : Sim) (fuel : Nat), s.queue = [] → runLoop s fuel = (s, [])) ∧
    ((simRun [0] exC10progs 5).1.sigs =
        [{ value := 0, newValue := 5, isActive := true, hookList := [] }] ∧
      (simRun [0] exC10progs 5).1.activeSignals = [0] ∧
      (simRun [0] exC10progs 5).1.queue = []) := by
  refine ⟨fun s => ⟨rfl, rfl, rfl, rfl, rfl, rfl⟩, ?_, by decide, by decide, by decide⟩
  intro s fuel h
  cases fuel with
  | zero => rfl
  | succ n => simp [runLoop, h]

/-- Witness for C10 at a concrete state: the empty-queue state left by
`finish` makes the run loop exit at once. -/
theorem c10_finish_frame_witness :
    (finishSim exC3state).queue = [] ∧
    runLoop (finishSim exC3state) 4 = (finishSim exC3state, []) :=
  ⟨(c10_finish_frame.1 exC3state).1,
    c10_finish_frame.2.1 (finishSim exC3state) 4 (c10_finish_frame.1 exC3state).1⟩

/-- Characterization of the hook pass: when the visited hooks have pairwise
distinct owners, none of which is queued, and all their queue links are null,
then an owner ends up in the queue exactly when its edge test fires on the
(fixed, pre-settlement) old and pending values — independently of the
visitation order. -/
theorem hookPass_char :
    ∀ (l : List Hook) (s : Sim) (v nv : Nat),
      (l.map Hook.proc).Nodup →
      (∀ h ∈ l, h.proc ∉ s.queue) →
      (∀ h ∈ l, (procOf s.procs h.proc).pnext = none) →
      ∀ h ∈ l, (h.proc ∈ (hookPass v nv l s).queue ↔ edgeFire h.edge v nv = true) := by
  intro l
  induction l with
  | nil => intro s v nv _ _ _ h hmem; exact absurd hmem (List.not_mem_nil h)
  | cons h0 rest ih =>
      intro s v nv hnd hnq hpn h hmem
      have hnd0 : h0.proc ∉ rest.map Hook.proc := (List.nodup_cons.1 hnd).1
      have hndr : (rest.map Hook.proc).Nodup := (List.nodup_cons.1 hnd).2
      have hg : (procOf s.procs h0.proc).pnext = none := hpn h0 (List.mem_cons_self _ _)
      simp only [hookPass]
      rw [if_pos hg]
      by_cases hf : edgeFire h0.edge v nv = true
      · rw [if_pos hf]
        rcases List.mem_cons.1 hmem with hh | hh
        · subst hh
          obtain ⟨pre, hq, -⟩ := hookPass_ext v nv rest (enqueueHead s h.proc)
          rw [hq, enqueueHead_queue]
          simp [hf]
        · refine ih (enqueueHead s h0.proc) v nv hndr ?_ ?_ h hh
          · intro h2 h2mem
            rw [enqueueHead_queue]
            intro hc
            rcases List.mem_cons.1 hc with hc | hc
            · exact hnd0 (hc ▸ List.mem_map_of_mem Hook.proc h2mem)
            · exact hnq h2 (List.mem_cons_of_mem _ h2mem) hc
          · intro h2 h2mem
            have hne : h0.proc ≠ h2.proc := by
              intro hc
              exact hnd0 (hc ▸ List.mem_map_of_mem Hook.proc h2mem)
            rw [enqueueHead_pnext_ne s _ _ hne]
            exact hpn h2 (List.mem_cons_of_mem _ h2mem)
      · rw [if_neg hf]
        rcases List.mem_cons.1 hmem with hh | hh
        · subst hh
          refine iff_of_false ?_ hf
          obtain ⟨pre, hq, hpre⟩ := hookPass_ext v nv rest s
          rw [hq]
          intro hc
          rcases List.mem_append.1 hc with hc | hc
          · obtain ⟨h2, h2mem, h2eq⟩ := hpre h.proc hc
            exact hnd0 (h2eq ▸ List.mem_map_of_mem Hook.proc h2mem)
          · exact hnq h (List.mem_cons_self _ _) hc
        · exact ih s v nv hndr
            (fun h2 h2mem => hnq h2 (List.mem_cons_of_mem _ h2mem))
            (fun h2 h2mem => hpn h2 (List.mem_cons_of_mem _ h2mem)) h hh

/-- The settlement commit does not touch the queue: the queue after
`settleOne` is the queue after its hook pass. -/
theorem settleOne_queue_eq (s : Sim) (sg : SigId) :
    (settleOne s sg).queue =
      (hookPass (sigOf s.sigs sg).value (sigOf s.sigs sg).newValue
        (sigOf s.sigs sg).hookList s).queue := rfl

/-- C4: the rising-only edge test fires iff the old committed value is zero
and the pending value nonzero; the falling-only test fires iff the old value
is nonzero and the pending value zero; the commit to the committed value
happens only after the whole hook pass of the signal, so (for hooks with
distinct unqueued owners with null links) whether an owner is woken depends
only on its edge mask and the signal's pre-settlement `value` / `new_value`
pair, regardless of visitation order. -/
theorem c4_edge_eval_pre_settlement :
    (∀ v nv : Nat, edgeFire POSEDGE v nv = true ↔ (v = 0 ∧ nv ≠ 0)) ∧
    (∀ v nv : Nat, edgeFire NEGEDGE v nv = true ↔ (v ≠ 0 ∧ nv = 0)) ∧
    (∀ (s : Sim) (sg : SigId), sg < s.sigs.length →
      (sigOf (settleOne s sg).sigs sg).value = (sigOf s.sigs sg).newValue ∧
      (sigOf (settleOne s sg).sigs sg).isActive = false) ∧
    (∀ (s : Sim) (sg : SigId),
      (((sigOf s.sigs sg).hookList.map Hook.proc).Nodup) →
      (∀ h ∈ (sigOf s.sigs sg).hookList, h.proc ∉ s.queue) →
      (∀ h ∈ (sigOf s.sigs sg).hookList, (procOf s.procs h.proc).pnext = none) →
      ∀ h ∈ (sigOf s.sigs sg).hookList,
        (h.proc ∈ (settleOne s sg).queue ↔
          edgeFire h.edge (sigOf s.sigs sg).value (sigOf s.sigs sg).newValue = true)) := by
  refine ⟨?_, ?_, ?_, ?_⟩
  · intro v nv
    by_cases hv : v = 0 <;> by_cases hn : nv = 0 <;>
      simp [edgeFire, POSEDGE, NEGEDGE, hv, hn]
  · intro v nv
    by_cases hv : v = 0 <;> by_cases hn : nv = 0 <;>
      simp [edgeFire, POSEDGE, NEGEDGE, hv, hn]
  · intro s sg hl
    obtain ⟨h1, -, h3⟩ := settleOne_commit s sg hl
    exact ⟨h1, h3⟩
  · intro s sg hnd hnq hpn h hmem
    rw [settleOne_queue_eq]
    exact hookPass_char _ s _ _ hnd hnq hpn h hmem

/-- Witness for C4 at the concrete state `exC4state`: the rising-only hook of
process 0 fires (0 enters the queue) for the 0 to 1 transition of signal 0. -/
theorem c4_edge_eval_pre_settlement_witness :
    (0 < exC4state.sigs.length ∧
      (sigOf (settleOne exC4state 0).sigs 0).value = 1) ∧
    (0 : ProcId) ∈ (settleOne exC4state 0).queue :=
  ⟨⟨by decide, by
      have := (c4_edge_eval_pre_settlement.2.2.1 exC4state 0 (by decide)).1
      rw [this]; decide⟩,
    (c4_edge_eval_pre_settlement.2.2.2 exC4state 0 (by decide) (by decide) (by decide)
      { proc := 0, edge := 1 } (by decide)).mpr (by decide)⟩

/-- C6: `set(signal, v)` records `v` as the pending value, leaves the
committed value alone, and pushes the signal on the active list and marks it
pending exactly when `v` differs from the committed value and the signal is
not already pending; a second write in the same cycle adds no second
active-list entry and only the last pending value is committed by the next
settlement (in the concrete run `exC6progs`, writing 1 then 2 leaves one
active entry and settles to 2). -/
theorem c6_write_coalescing :
    (∀ (s : Sim) (sg : SigId) (v : Nat), sg < s.sigs.length →
      (sigOf (setSignal s sg v).sigs sg).newValue = v % U64 ∧
      (sigOf (setSignal s sg v).sigs sg).value = (sigOf s.sigs sg).value ∧
      ((setSignal s sg v).activeSignals =
        if v % U64 ≠ (sigOf s.sigs sg).value ∧ (sigOf s.sigs sg).isActive = false
        then sg :: s.activeSignals else s.activeSignals) ∧
      ((sigOf (setSignal s sg v).sigs sg).isActive =
        ((sigOf s.sigs sg).isActive || decide (v % U64 ≠ (sigOf s.sigs sg).value)))) ∧
    (∀ (s : Sim) (sg : SigId) (v1 v2 : Nat), sg < s.sigs.length →
      (sigOf s.sigs sg).isActive = false → sg ∉ s.activeSignals →
      List.count sg (setSignal (setSignal s sg v1) sg v2).activeSignals ≤ 1 ∧
      (sigOf (setSignal (setSignal s sg v1) sg v2).sigs sg).newValue = v2 % U64) ∧
    ((reachState [0] exC6progs 1).activeSignals = [0] ∧
      (sigOf (reachState [0] exC6progs 1).sigs 0).newValue = 2 ∧
      (sigOf (simRun [0] exC6progs 5).1.sigs 0).value = 2) := by
  have base : ∀ (s : Sim) (sg : SigId) (v : Nat), sg < s.sigs.length →
      (sigOf (setSignal s sg v).sigs sg).newValue = v % U64 ∧
      (sigOf (setSignal s sg v).sigs sg).value = (sigOf s.sigs sg).value ∧
      ((setSignal s sg v).activeSignals =
        if v % U64 ≠ (sigOf s.sigs sg).value ∧ (sigOf s.sigs sg).isActive = false
        then sg :: s.activeSignals else s.activeSignals) ∧
      ((sigOf (setSignal s sg v).sigs sg).isActive =
        ((sigOf s.sigs sg).isActive || decide (v % U64 ≠ (sigOf s.sigs sg).value))) := by
    intro s sg v hl
    by_cases hc : v % U64 ≠ (sigOf s.sigs sg).value ∧ (sigOf s.sigs sg).isActive = false
    · simp only [setSignal]
      rw [if_pos hc]
      rw [sigOf_set_self _ _ _ hl]
      refine ⟨rfl, rfl, by rw [if_pos hc], ?_⟩
      simp [hc.1, hc.2]
    · simp only [setSignal]
      rw [if_neg hc, if_neg hc]
      rw [sigOf_set_self _ _ _ hl]
      refine ⟨rfl, rfl, rfl, ?_⟩
      rcases Decidable.not_and_iff_or_not.1 hc with hc1 | hc2
      · have : v % U64 = (sigOf s.sigs sg).value := Decidable.not_not.1 hc1
        simp [this]
      · have : (sigOf s.sigs sg).isActive = true := by
          cases hb : (sigOf s.sigs sg).isActive
          · exact absurd hb hc2
          · rfl
        simp [this]
  refine ⟨base, ?_, by decide, by decide, by decide⟩
  intro s sg v1 v2 hl hact hmem
  obtain ⟨h1n, h1v, h1a, h1f⟩ := base s sg v1 hl
  have hl1 : sg < (setSignal s sg v1).sigs.length := by
    simp only [setSignal]
    split <;> simpa using hl
  obtain ⟨h2n, h2v, h2a, h2f⟩ := base (setSignal s sg v1) sg v2 hl1
  refine ⟨?_, h2n⟩
  rw [h2a, h1a]
  have hcount0 : List.count sg s.activeSignals = 0 := List.count_eq_zero.mpr hmem
  by_cases hc1 : v1 % U64 ≠ (sigOf s.sigs sg).value ∧ (sigOf s.sigs sg).isActive = false
  · rw [if_pos hc1]
    have : (sigOf (setSignal s sg v1).sigs sg).isActive = true := by
      rw [h1f, hc1.2]
      simp [hc1.1]
    rw [if_neg]
    · simp [List.count_cons, hcount0]
    · intro hcon
      rw [this] at hcon
      exact absurd hcon.2 (by simp)
  · rw [if_neg hc1]
    by_cases hc2 : v2 % U64 ≠ (sigOf (setSignal s sg v1).sigs sg).value ∧
        (sigOf (setSignal s sg v1).sigs sg).isActive = false
    · rw [if_pos hc2]
      simp [List.count_cons, hcount0]
    · rw [if_neg hc2]
      simp [hcount0]

/-- Witness for C6: two writes of signal 0 (values 1 then 2) from an initial
scheduler state leave at most one active-list entry and pending value 2. -/
theorem c6_write_coalescing_witness :
    List.count 0 (setSignal (setSignal (initSim [0] []) 0 1) 0 2).activeSignals ≤ 1 ∧
    (sigOf (setSignal (setSignal (initSim [0] []) 0 1) 0 2).sigs 0).newValue = 2 % U64 :=
  c6_write_coalescing.2.1 (initSim [0] []) 0 1 2 (by decide) (by decide) (by decide)

/-- C5 counterexample: the claim says an "any change" binding never fires as
a result of a write that does not change the committed value, including when
writes coalesce so that the final pending value equals the old committed
value.  In the run of `exC5progs`, process 1 writes signal 0 to 1 and then
back to 0 within one cycle; the committed value of signal 0 is 0 at every
reached state (it never changes), yet the any-change binding of process 0
fires at settlement: the trace shows process 0 resumed a second time, right
after the `settled` event, woken by the coalesced no-op write. -/
theorem c5_any_change_counterexample :
    (simRun [0] exC5progs 10).2 =
      [Ev.resumed 1 0, Ev.resumed 0 0, Ev.settled 0, Ev.resumed 0 0,
       Ev.settled 0, Ev.advanced 1, Ev.resumed 1 1] ∧
    ((List.range 8).all fun k =>
      (sigOf (reachState [0] exC5progs k).sigs 0).value == 0) = true ∧
    (sigOf (simRun [0] exC5progs 10).1.sigs 0).value = 0 := by
  refine ⟨by decide, by decide, by decide⟩

/-- C5 amended: an "any change" binding (no edge bits set) fires whenever its
signal is visited during settlement, i.e. whenever the signal is on the
active list — some write in the cycle made the pending value differ from the
committed value at the time — even if later writes of the same cycle restore
the old committed value; conversely, a write of the currently committed
value to a signal that is not pending adds no active-list entry, changes no
flag and no queue, and settlement wakes only processes hooked on
active-listed signals, so such a no-op single write never fires any
binding. -/
theorem c5_any_change_amended :
    (∀ v nv : Nat, edgeFire 0 v nv = true) ∧
    (∀ (s : Sim) (sg : SigId) (v : Nat), sg < s.sigs.length →
      v % U64 = (sigOf s.sigs sg).value →
      (setSignal s sg v).activeSignals = s.activeSignals ∧
      (setSignal s sg v).queue = s.queue ∧
      (sigOf (setSignal s sg v).sigs sg).isActive = (sigOf s.sigs sg).isActive) ∧
    (∀ (s : Sim) (p : ProcId), p ∈ (settleSignals s).queue →
      p ∈ s.queue ∨ ∃ sg ∈ s.activeSignals, ∃ h ∈ (sigOf s.sigs sg).hookList, h.proc = p) := by
  refine ⟨?_, ?_, ?_⟩
  · intro v nv
    simp [edgeFire, POSEDGE, NEGEDGE]
  · intro s sg v hl hv
    have hc : ¬(v % U64 ≠ (sigOf s.sigs sg).value ∧ (sigOf s.sigs sg).isActive = false) := by
      intro hcon
      exact hcon.1 hv
    simp only [setSignal]
    rw [if_neg hc]
    exact ⟨rfl, rfl, by rw [sigOf_set_self _ _ _ hl]⟩
  · intro s p hp
    obtain ⟨pre, hq, hpre⟩ := settleSignals_ext s
    rw [hq] at hp
    rcases List.mem_append.1 hp with hp | hp
    · exact Or.inr (hpre p hp)
    · exact Or.inl hp

/-- Witness for C5 (amended): writing the committed value 7 back to an
inactive signal changes nothing that settlement looks at. -/
theorem c5_any_change_amended_witness :
    (setSignal (initSim [7] []) 0 7).activeSignals = (initSim [7] []).activeSignals ∧
    (setSignal (initSim [7] []) 0 7).queue = (initSim [7] []).queue ∧
    (sigOf (setSignal (initSim [7] []) 0 7).sigs 0).isActive =
      (sigOf (initSim [7] []).sigs 0).isActive :=
  c5_any_change_amended.2.1 (initSim [7] []) 0 7 (by decide) (by decide)

/-- Setting only the `pnext` link of a process changes no process's delay. -/
theorem procOf_set_pnextOnly_delay (procs : List ProcSt) (p q : ProcId) (o : Option ProcId) :
    (procOf (procs.set p { procOf procs p with pnext := o }) q).delay =
      (procOf procs q).delay :=
  procOf_set_delay procs p q (fun x => { x with pnext := o }) (fun _ => rfl)

theorem settledClocks_append (l1 l2 : List Ev) :
    settledClocks (l1 ++ l2) = settledClocks l1 ++ settledClocks l2 := by
  induction l1 with
  | nil => rfl
  | cons e rest ih => cases e <;> simp [settledClocks, ih]

/-! ## Clock bookkeeping lemmas -/

theorem setSignal_time (s : Sim) (sg : SigId) (v : Nat) :
    (setSignal s sg v).time = s.time := by
  simp only [setSignal]
  split <;> rfl

theorem setSignal_queue (s : Sim) (sg : SigId) (v : Nat) :
    (setSignal s sg v).queue = s.queue := by
  simp only [setSignal]
  split <;> rfl

theorem setSignal_procs (s : Sim) (sg : SigId) (v : Nat) :
    (setSignal s sg v).procs = s.procs := by
  simp only [setSignal]
  split <;> rfl

theorem addHooks_time (p : ProcId) :
    ∀ (hs : List (SigId × Nat)) (s : Sim), (addHooks s p hs).time = s.time := by
  intro hs
  induction hs with
  | nil => intro s; rfl
  | cons h rest ih =>
      intro s
      rcases h with ⟨sg, e⟩
      simp only [addHooks]
      rw [ih]

theorem addHooks_queue (p : ProcId) :
    ∀ (hs : List (SigId × Nat)) (s : Sim), (addHooks s p hs).queue = s.queue := by
  intro hs
  induction hs with
  | nil => intro s; rfl
  | cons h rest ih =>
      intro s
      rcases h with ⟨sg, e⟩
      simp only [addHooks]
      rw [ih]

theorem addHooks_procs (p : ProcId) :
    ∀ (hs : List (SigId × Nat)) (s : Sim), (addHooks s p hs).procs = s.procs := by
  intro hs
  induction hs with
  | nil => intro s; rfl
  | cons h rest ih =>
      intro s
      rcases h with ⟨sg, e⟩
      simp only [addHooks]
      rw [ih]

theorem delayCall_time (s : Sim) (p : ProcId) (n : Nat) :
    (delayCall s p n).time = s.time := rfl

theorem setProg_time (s : Sim) (p : ProcId) (k : Proc) : (setProg s p k).time = s.time := rfl

theorem stripHooks_time (s : Sim) (p : ProcId) : (stripHooks s p).time = s.time := rfl

/-- A process slice never touches the clock: `time_ticks` is written only by
the run loop itself. -/
theorem runSlice_time (p : ProcId) :
    ∀ (k : Proc) (s : Sim), (runSlice s p k).time = s.time := by
  intro k
  induction k with
  | ret => intro s; rfl
  | set sg v k ih =>
      intro s
      simp only [runSlice]
      rw [ih, setSignal_time]
  | fin k ih =>
      intro s
      simp only [runSlice]
      rw [ih]
      rfl
  | delay n k _ => intro s; rfl
  | wait hs k _ =>
      intro s
      simp only [runSlice]
      rw [addHooks_time]
      rfl

/-- Trace and final clock of the dequeue-and-resume part of an iteration:
the clock advances by the dequeued head's relative delay (if nonzero) before
the resumption, and the resumption is recorded at the advanced clock. -/
theorem dequeueResume_eq (s1 : Sim) (c : ProcId) (rest : List ProcId)
    (hq : s1.queue = c :: rest) :
    (dequeueResume s1).2 =
      (if (procOf s1.procs c).delay ≠ 0 then [Ev.advanced ((procOf s1.procs c).delay)]
        else []) ++
        [Ev.resumed c (if (procOf s1.procs c).delay ≠ 0
          then (s1.time + (procOf s1.procs c).delay) % U64 else s1.time)] ∧
    (dequeueResume s1).1.time =
      (if (procOf s1.procs c).delay ≠ 0
        then (s1.time + (procOf s1.procs c).delay) % U64 else s1.time) := by
  have hd : (procOf (s1.procs.set c { procOf s1.procs c with pnext := none }) c).delay
      = (procOf s1.procs c).delay := procOf_set_pnextOnly_delay _ _ _ _
  have hst : ∀ s2 : Sim, (runSlice (stripHooks s2 c) c
      (procOf (stripHooks s2 c).procs c).prog).time = s2.time := by
    intro s2
    rw [runSlice_time, stripHooks_time]
  simp only [dequeueResume, hq, hd]
  by_cases h0 : (procOf s1.procs c).delay ≠ 0
  · simp [h0, hst]
  · simp [h0, hst]

theorem runStep_eq_pos (s : Sim) (h : ProcId) (t : List ProcId)
    (hq : s.queue = h :: t) (hd : (procOf s.procs h).delay ≠ 0) :
    runStep s = ((dequeueResume (settleSignals s)).1,
      Ev.settled s.time :: (dequeueResume (settleSignals s)).2) := by
  simp only [runStep, hq]
  rw [if_pos hd]

theorem runStep_eq_zero (s : Sim) (h : ProcId) (t : List ProcId)
    (hq : s.queue = h :: t) (hd : (procOf s.procs h).delay = 0) :
    runStep s = dequeueResume s := by
  simp only [runStep, hq]
  rw [if_neg (by simp [hd])]

/-- C2 counterexample: in the run of `exC2progs`, settlement runs twice at
wake time 0 (`settledClocks` is `[0, 0]`), one settlement per delta wave, so
settlement does not run "exactly once per distinct wake time".  Moreover at
the state after two iterations the queue head (process 1) has relative delay
1, settlement runs, but the process then dequeued is the just-woken process 0
and the clock does not advance before it resumes (the iteration's trace is
`[settled 0, resumed 0 at clock 0]`, with no `advanced` event), so the clock
does not "advance by that delay before the dequeued process resumes". -/
theorem c2_settlement_per_wake_counterexample :
    (simRun [0, 0] exC2progs 10).2 =
      [Ev.resumed 1 0, Ev.resumed 0 0, Ev.settled 0, Ev.resumed 0 0,
       Ev.settled 0, Ev.advanced 1, Ev.resumed 1 1] ∧
    settledClocks (simRun [0, 0] exC2progs 10).2 = [0, 0] ∧
    (procOf (reachState [0, 0] exC2progs 2).procs 1).delay = 1 ∧
    (reachState [0, 0] exC2progs 2).queue = [1] ∧
    (runStep (reachState [0, 0] exC2progs 2)).2 = [Ev.settled 0, Ev.resumed 0 0] := by
  refine ⟨by decide, by decide, by decide, by decide, by decide⟩

/-- C2 amended: in every loop iteration, settlement runs exactly when the
(pre-settlement) head's relative delay is nonzero — so at most one settlement
pass per iteration, but possibly several per wake time, one per delta wave.
When it runs, the scheduler then dequeues the post-settlement head `c`
(the original head whenever settlement leaves the queue unchanged) and the
clock advances by whatever `c`'s stored `delay` field holds — zero meaning
no advance — before `c` is resumed.  Settlement never writes that field
(the enqueue of a woken process leaves it as it was), so a settlement-woken
process carries the stale delay of its last `delay` call, and a nonzero
stale value makes the clock advance spuriously before the woken process
resumes: in the `exC2bprogs` run, process 0 (which delayed 5, then waited)
is woken by settlement at tick 6 yet the iteration advances the clock by
the stale 5 and resumes it at tick 11.  When the head's delay is zero, no
settlement and no advance happen and the head is resumed at the unchanged
clock. -/
theorem c2_settlement_and_advance :
    (∀ (s : Sim) (h : ProcId) (t : List ProcId), s.queue = h :: t →
      ((procOf s.procs h).delay = 0 → (runStep s).2 = [Ev.resumed h s.time]) ∧
      ((procOf s.procs h).delay ≠ 0 →
        ∃ c t2, (settleSignals s).queue = c :: t2 ∧
          (runStep s).2 =
            Ev.settled s.time ::
              (if (procOf s.procs c).delay ≠ 0 then
                [Ev.advanced ((procOf s.procs c).delay),
                 Ev.resumed c ((s.time + (procOf s.procs c).delay) % U64)]
               else [Ev.resumed c s.time]) ∧
          ((settleSignals s).queue = s.queue → c = h))) ∧
    (∀ s : Sim, (settledClocks (runStep s).2).length ≤ 1) ∧
    (∀ (s : Sim) (q : ProcId),
      (procOf (settleSignals s).procs q).delay = (procOf s.procs q).delay) ∧
    ((reachState [0] exC2bprogs 4).queue = [1] ∧
      (reachState [0] exC2bprogs 4).time = 6 ∧
      (0 : ProcId) ∉ (reachState [0] exC2bprogs 4).queue ∧
      (procOf (reachState [0] exC2bprogs 4).procs 0).delay = 5 ∧
      (settleSignals (reachState [0] exC2bprogs 4)).queue = [0, 1] ∧
      (runStep (reachState [0] exC2bprogs 4)).2 =
        [Ev.settled 6, Ev.advanced 5, Ev.resumed 0 11]) := by
  refine ⟨?_, ?_, settleSignals_delay,
    by decide, by decide, by decide, by decide, by decide, by decide⟩
  · intro s h t hq
    constructor
    · intro hd
      rw [runStep_eq_zero s h t hq hd]
      rw [(dequeueResume_eq s h t hq).1]
      simp [hd]
    · intro hd
      have hne : (settleSignals s).queue ≠ [] :=
        settleSignals_queue_nonempty s (by rw [hq]; exact List.cons_ne_nil h t)
      rcases hc : (settleSignals s).queue with _ | ⟨c, t2⟩
      · exact absurd hc hne
      refine ⟨c, t2, rfl, ?_, ?_⟩
      · have h2 : (runStep s).2 = Ev.settled s.time :: (dequeueResume (settleSignals s)).2 := by
          rw [runStep_eq_pos s h t hq hd]
        rw [h2, (dequeueResume_eq (settleSignals s) c t2 hc).1]
        rw [settleSignals_delay, settleSignals_time]
        by_cases hdc0 : (procOf s.procs c).delay ≠ 0
        · simp [hdc0]
        · simp [hdc0]
      · intro heq
        have h2 : c :: t2 = h :: t := by rw [heq, hq]
        cases h2
        rfl
  · intro s
    rcases hq : s.queue with _ | ⟨h, t⟩
    · simp [runStep, hq, settledClocks]
    · by_cases hd : (procOf s.procs h).delay ≠ 0
      · rw [runStep_eq_pos s h t hq hd]
        have hne : (settleSignals s).queue ≠ [] :=
          settleSignals_queue_nonempty s (by rw [hq]; exact List.cons_ne_nil h t)
        rcases hc : (settleSignals s).queue with _ | ⟨c, t2⟩
        · exact absurd hc hne
        rw [(dequeueResume_eq (settleSignals s) c t2 hc).1]
        by_cases hdc0 : (procOf (settleSignals s).procs c).delay ≠ 0 <;>
          simp [hdc0, settledClocks, settledClocks_append]
      · rw [runStep_eq_zero s h t hq (by omega)]
        rw [(dequeueResume_eq s h t hq).1]
        by_cases hdc0 : (procOf s.procs h).delay ≠ 0 <;>
          simp [hdc0, settledClocks, settledClocks_append]

/-- Witness for C2 (amended) at the initial state of the `exC2progs` run:
the head has delay 0, so the iteration settles nothing and resumes the head
at the unchanged clock. -/
theorem c2_settlement_and_advance_witness :
    (reachState [0, 0] exC2progs 0).queue = 1 :: [0] ∧
    (procOf (reachState [0, 0] exC2progs 0).procs 1).delay = 0 ∧
    (runStep (reachState [0, 0] exC2progs 0)).2 =
      [Ev.resumed 1 (reachState [0, 0] exC2progs 0).time] :=
  ⟨by decide, by decide,
    (c2_settlement_and_advance.1 (reachState [0, 0] exC2progs 0) 1 [0] (by decide)).1
      (by decide)⟩

theorem sumAdv_append (l1 l2 : List Ev) :
    sumAdv (l1 ++ l2) = sumAdv l1 + sumAdv l2 := by
  induction l1 with
  | nil => simp [sumAdv]
  | cons e rest ih => cases e <;> simp [sumAdv, ih] <;> omega

theorem resumedClocks_append (l1 l2 : List Ev) :
    resumedClocks (l1 ++ l2) = resumedClocks l1 ++ resumedClocks l2 := by
  induction l1 with
  | nil => rfl
  | cons e rest ih => cases e <;> simp [resumedClocks, ih]

theorem runLoop_succ_nil (s : Sim) (n : Nat) (h : s.queue = []) :
    runLoop s (n + 1) = (s, []) := by
  simp [runLoop, h]

theorem runLoop_succ_cons (s : Sim) (n : Nat) (h : ProcId) (t : List ProcId)
    (hq : s.queue = h :: t) :
    runLoop s (n + 1) =
      ((runLoop (runStep s).1 n).1, (runStep s).2 ++ (runLoop (runStep s).1 n).2) := by
  simp [runLoop, hq]

/-- One loop iteration advances the clock (mod `2^64`) by exactly the sum of
its `advanced` events, and keeps it below `2^64`. -/
theorem runStep_time (s : Sim) (hlt : s.time < U64) :
    (runStep s).1.time = (s.time + sumAdv (runStep s).2) % U64 ∧
    (runStep s).1.time < U64 := by
  have hU : 0 < U64 := by decide
  rcases hq : s.queue with _ | ⟨h0, t⟩
  · simp only [runStep, hq]
    simp [sumAdv, Nat.mod_eq_of_lt hlt, hlt]
  · by_cases hd : (procOf s.procs h0).delay ≠ 0
    · rw [runStep_eq_pos s h0 t hq hd]
      have htime : (settleSignals s).time = s.time := settleSignals_time s
      rcases hc : (settleSignals s).queue with _ | ⟨c, t2⟩
      · exact absurd hc
          (settleSignals_queue_nonempty s (by rw [hq]; exact List.cons_ne_nil h0 t))
      obtain ⟨htr, hti⟩ := dequeueResume_eq (settleSignals s) c t2 hc
      simp only [htr, hti, htime]
      by_cases hdc : (procOf (settleSignals s).procs c).delay ≠ 0
      · simp only [if_pos hdc]
        constructor
        · simp [sumAdv_append, sumAdv]
        · exact Nat.mod_lt _ hU
      · simp only [if_neg hdc]
        constructor
        · simp [sumAdv_append, sumAdv, Nat.mod_eq_of_lt hlt]
        · exact hlt
    · have hd0 : (procOf s.procs h0).delay = 0 := by omega
      rw [runStep_eq_zero s h0 t hq hd0]
      obtain ⟨htr, hti⟩ := dequeueResume_eq s h0 t hq
      simp only [htr, hti]
      simp only [hd0]
      constructor
      · simp [sumAdv_append, sumAdv, Nat.mod_eq_of_lt hlt]
      · simpa using hlt

/-- The run loop's final clock is the initial clock plus the consumed
relative delays, mod `2^64`. -/
theorem runLoop_time :
    ∀ (fuel : Nat) (s : Sim), s.time < U64 →
      (runLoop s fuel).1.time = (s.time + sumAdv (runLoop s fuel).2) % U64 := by
  intro fuel
  induction fuel with
  | zero => intro s hlt; simpa [runLoop, sumAdv] using (Nat.mod_eq_of_lt hlt).symm
  | succ n ih =>
      intro s hlt
      rcases hq : s.queue with _ | ⟨h, t⟩
      · rw [runLoop_succ_nil s n hq]
        simpa [sumAdv] using (Nat.mod_eq_of_lt hlt).symm
      · rw [runLoop_succ_cons s n h t hq]
        obtain ⟨hstep, hstep2⟩ := runStep_time s hlt
        have := ih (runStep s).1 hstep2
        simp only [this, hstep, sumAdv_append]
        rw [Nat.mod_add_mod]
        rw [Nat.add_assoc]

/-- A non-trivial loop iteration records exactly one resumption, at the
iteration's final clock reading. -/
theorem runStep_resumedClocks (s : Sim) (hne : s.queue ≠ []) :
    resumedClocks (runStep s).2 = [(runStep s).1.time] := by
  rcases hq : s.queue with _ | ⟨h0, t⟩
  · exact absurd hq hne
  · by_cases hd : (procOf s.procs h0).delay ≠ 0
    · rw [runStep_eq_pos s h0 t hq hd]
      rcases hc : (settleSignals s).queue with _ | ⟨c, t2⟩
      · exact absurd hc
          (settleSignals_queue_nonempty s (by rw [hq]; exact List.cons_ne_nil h0 t))
      obtain ⟨htr, hti⟩ := dequeueResume_eq (settleSignals s) c t2 hc
      simp only [htr, hti]
      by_cases hdc : (procOf (settleSignals s).procs c).delay ≠ 0 <;>
        simp [hdc, resumedClocks_append, resumedClocks]
    · have hd0 : (procOf s.procs h0).delay = 0 := by omega
      rw [runStep_eq_zero s h0 t hq hd0]
      obtain ⟨htr, hti⟩ := dequeueResume_eq s h0 t hq
      simp only [htr, hti]
      simp [hd0, resumedClocks_append, resumedClocks]

/-- When the total of consumed delays stays below `2^64`, every clock reading
at a resumption lies between the starting clock and starting clock plus that
total, and the readings are non-decreasing along the run. -/
theorem runLoop_clocks :
    ∀ (fuel : Nat) (s : Sim), s.time < U64 →
      s.time + sumAdv (runLoop s fuel).2 < U64 →
      (∀ x ∈ resumedClocks (runLoop s fuel).2,
        s.time ≤ x ∧ x ≤ s.time + sumAdv (runLoop s fuel).2) ∧
      List.Chain' (· ≤ ·) (resumedClocks (runLoop s fuel).2) := by
  intro fuel
  induction fuel with
  | zero => intro s _ _; simp [runLoop, resumedClocks]
  | succ n ih =>
      intro s hlt hbound
      rcases hq : s.queue with _ | ⟨h, t⟩
      · rw [runLoop_succ_nil s n hq]
        simp [resumedClocks]
      · rw [runLoop_succ_cons s n h t hq] at hbound ⊢
        simp only [sumAdv_append, resumedClocks_append] at hbound ⊢
        rw [runStep_resumedClocks s (by rw [hq]; exact List.cons_ne_nil h t)]
        obtain ⟨hstep, hstep2⟩ := runStep_time s hlt
        have hstime : (runStep s).1.time = s.time + sumAdv (runStep s).2 := by
          rw [hstep]
          exact Nat.mod_eq_of_lt (by omega)
        have hbound1 : (runStep s).1.time + sumAdv (runLoop (runStep s).1 n).2 < U64 := by
          omega
        obtain ⟨hmem, hchain⟩ := ih (runStep s).1 hstep2 hbound1
        constructor
        · intro x hx
          rcases List.mem_cons.1 hx with hx | hx
          · subst hx
            omega
          · have := hmem x hx
            omega
        · refine List.chain'_cons'.mpr ⟨?_, hchain⟩
          intro y hy
          have := hmem y (List.mem_of_mem_head? hy)
          omega

theorem buildQueue_time :
    ∀ (l : List ProcId) (s : Sim), (buildQueue l s).time = s.time := by
  intro l
  induction l with
  | nil => intro s; rfl
  | cons i rest ih => intro s; simp only [buildQueue]; rw [ih]

/-- C9 counterexample: the logical clock is a wrapping `uint64_t`.  In the
run of `exC9progs` (one process delaying `2^64 - 1` ticks and then 2 more),
the consumed relative delays sum to `2^64 + 1`, but the final clock reads 1,
and the clock readings at resumptions are `[0, 2^64 - 1, 1]` — the clock
moves backward (from `2^64 - 1` to 1) and does not equal the sum of the
consumed delays, refuting both halves of the claim. -/
theorem c9_clock_sum_counterexample :
    (simRun [] exC9progs 10).2 =
      [Ev.resumed 0 0, Ev.settled 0, Ev.advanced 18446744073709551615,
       Ev.resumed 0 18446744073709551615, Ev.settled 18446744073709551615,
       Ev.advanced 2, Ev.resumed 0 1] ∧
    (simRun [] exC9progs 10).1.time = 1 ∧
    sumAdv (simRun [] exC9progs 10).2 = 18446744073709551617 ∧
    resumedClocks (simRun [] exC9progs 10).2 = [0, 18446744073709551615, 1] ∧
    ¬ List.Chain' (· ≤ ·) (resumedClocks (simRun [] exC9progs 10).2) ∧
    (simRun [] exC9progs 10).1.time ≠ sumAdv (simRun [] exC9progs 10).2 := by
  refine ⟨by decide, by decide, by decide, by decide, ?_, by decide⟩
  have h : resumedClocks (simRun [] exC9progs 10).2 = [0, 18446744073709551615, 1] := by
    decide
  rw [h]
  simp [List.chain'_cons]

/-- C9 amended: the clock after `run()` equals the sum of the relative
delays actually consumed (one `advanced` event per dequeued process with
nonzero relative delay) reduced mod `2^64`; when that sum stays below
`2^64` — no `uint64_t` wrap — the clock equals the sum exactly and the
clock readings at resumptions are monotonically non-decreasing throughout
the run. -/
theorem c9_clock_mod_sum :
    (∀ (s : Sim) (fuel : Nat), s.time < U64 →
      (runLoop s fuel).1.time = (s.time + sumAdv (runLoop s fuel).2) % U64) ∧
    (∀ (sigVals : List Nat) (progs : List Proc) (fuel : Nat),
      sumAdv (simRun sigVals progs fuel).2 < U64 →
      (simRun sigVals progs fuel).1.time = sumAdv (simRun sigVals progs fuel).2 ∧
      List.Chain' (· ≤ ·) (resumedClocks (simRun sigVals progs fuel).2)) := by
  constructor
  · intro s fuel hlt
    exact runLoop_time fuel s hlt
  · intro sigVals progs fuel hbound
    have htime0 : (buildQueue (List.range progs.length) (initSim sigVals progs)).time = 0 := by
      rw [buildQueue_time]
      rfl
    have hlt : (buildQueue (List.range progs.length) (initSim sigVals progs)).time < U64 := by
      rw [htime0]; decide
    constructor
    · have := runLoop_time fuel _ hlt
      simp only [simRun] at hbound ⊢
      rw [this, htime0]
      rw [Nat.zero_add]
      exact Nat.mod_eq_of_lt hbound
    · have := runLoop_clocks fuel _ hlt (by
        simp only [simRun] at hbound
        omega)
      simpa [simRun] using this.2

/-- Witness for C9 (amended) on the run of `exC8progs`: the consumed total is
1, the final clock is 1 and the resumption clocks are non-decreasing. -/
theorem c9_clock_mod_sum_witness :
    sumAdv (simRun [] exC8progs 10).2 < U64 ∧
    ((simRun [] exC8progs 10).1.time = sumAdv (simRun [] exC8progs 10).2 ∧
      List.Chain' (· ≤ ·) (resumedClocks (simRun [] exC8progs 10).2)) :=
  ⟨by decide, c9_clock_mod_sum.2 [] exC8progs 10 (by decide)⟩

/-! ## Queue order lemmas -/

theorem buildQueue_queue :
    ∀ (l : List ProcId) (s : Sim), (buildQueue l s).queue = l.reverse ++ s.queue := by
  intro l
  induction l with
  | nil => intro s; simp [buildQueue]
  | cons i rest ih =>
      intro s
      simp only [buildQueue]
      rw [ih]
      simp

/-- The insertion walk of `delay` splits the queue at the first node whose
absolute wake offset exceeds the requested delay: the caller lands after
every node due within `n` ticks (ties included) and before the rest. -/
theorem insertGo_split (cur : ProcId) :
    ∀ (n : Nat) (qs : List ProcId) (procs : List ProcSt), qs.Nodup →
      ∃ q1 q2, qs = q1 ++ q2 ∧ (insertGo cur n qs procs).1 = q1 ++ cur :: q2 ∧
        (∀ r ∈ q1, wakeOffset procs qs r ≤ n) ∧
        (∀ r ∈ q2.head?.toList, n < wakeOffset procs qs r) := by
  intro n qs
  induction qs generalizing n with
  | nil =>
      intro procs _
      exact ⟨[], [], rfl, rfl, by simp, by simp⟩
  | cons p rest ih =>
      intro procs hnd
      have hp : p ∉ rest := (List.nodup_cons.1 hnd).1
      have hndr : rest.Nodup := (List.nodup_cons.1 hnd).2
      by_cases hgt : (procOf procs p).delay > n
      · refine ⟨[], p :: rest, rfl, ?_, by simp, ?_⟩
        · simp only [insertGo]
          rw [if_pos hgt]
          simp
        · intro r hr
          simp only [List.head?_cons, Option.toList_some, List.mem_singleton] at hr
          subst hr
          simp only [wakeOffset, if_pos rfl]
          exact hgt
      · set n1 := if (procOf procs p).delay > 0 then n - (procOf procs p).delay else n with hn1
        have hn1e : (procOf procs p).delay + n1 = n := by
          rw [hn1]
          split <;> omega
        obtain ⟨r1, r2, hsplit, hins, hle, hgt2⟩ := ih n1 procs hndr
        refine ⟨p :: r1, r2, by simp [hsplit], ?_, ?_, ?_⟩
        · simp only [insertGo]
          rw [if_neg hgt]
          simp only [← hn1, hins]
          rfl
        · intro r hr
          rcases List.mem_cons.1 hr with hr | hr
          · subst hr
            simp only [wakeOffset, if_pos]
            omega
          · have hrne : p ≠ r := by
              intro hc
              subst hc
              exact hp (hsplit ▸ List.mem_append_left r2 hr)
            have := hle r hr
            simp only [wakeOffset, if_neg hrne]
            omega
        · intro r hr
          have hrrest : r ∈ rest := by
            rcases hr2 : r2 with _ | ⟨y, ys⟩
            · subst hr2; simp at hr
            · subst hr2
              simp only [List.head?_cons, Option.toList_some, List.mem_singleton] at hr
              subst hr
              rw [hsplit]
              exact List.mem_append_right r1 (List.mem_cons_self _ _)
          have hrne : p ≠ r := by
            intro hc
            subst hc
            exact hp hrrest
          have := hgt2 r hr
          simp only [wakeOffset, if_neg hrne]
          omega

/-- C8 counterexample: in the run of `exC8progs`, process 1 runs first (at
tick 0) and calls `delay(1)` before process 0 does; both are then due at
tick 1, and they are resumed in the order 1 then 0 — the order in which the
delays were issued (FIFO among same-tick delay wakeups), because the
insertion walk places a new node after every node with equal wake time.
"Most-recently-delayed-first" would resume process 0 first, so the claim's
general stack discipline (and its "not FIFO") is refuted. -/
theorem c8_same_tick_order_counterexample :
    (simRun [] exC8progs 10).2 =
      [Ev.resumed 1 0, Ev.resumed 0 0, Ev.settled 0, Ev.advanced 1,
       Ev.resumed 1 1, Ev.resumed 0 1] := by
  decide

/-- C8 amended: initial activation is most-recently-registered-first: the
initial enqueue pushes each registered process on the queue head, so the
initial queue is the reverse of registration order, and registered processes
P1, P2, P3 all due at tick 0 are first resumed in the order P3, P2, P1 (the
concrete `exC8bprogs` run).  Settlement wakeups are likewise pushed on the
head (stack).  But among processes that reach the same wake time through
`delay` calls, resumption order is the order the delays were issued (FIFO):
the insertion walk puts the caller after every node with wake offset at most
`n` — ties included — and before the first node with a larger offset. -/
theorem c8_same_tick_order :
    (∀ (sigVals : List Nat) (progs : List Proc),
      (buildQueue (List.range progs.length) (initSim sigVals progs)).queue =
        (List.range progs.length).reverse) ∧
    (∀ (cur : ProcId) (n : Nat) (qs : List ProcId) (procs : List ProcSt), qs.Nodup →
      ∃ q1 q2, qs = q1 ++ q2 ∧ (insertGo cur n qs procs).1 = q1 ++ cur :: q2 ∧
        (∀ r ∈ q1, wakeOffset procs qs r ≤ n) ∧
        (∀ r ∈ q2.head?.toList, n < wakeOffset procs qs r)) ∧
    (simRun [] exC8bprogs 10).2.take 3 =
      [Ev.resumed 2 0, Ev.resumed 1 0, Ev.resumed 0 0] := by
  refine ⟨?_, insertGo_split, by decide⟩
  intro sigVals progs
  rw [buildQueue_queue]
  simp [initSim]

/-! ## Hook bookkeeping lemmas -/

theorem map_set_eq {α β : Type} (f : α → β) (d : α) :
    ∀ (l : List α) (i : Nat) (a : α), f a = f (l.getD i d) →
      (l.set i a).map f = l.map f := by
  intro l
  induction l with
  | nil => intro i a _; rfl
  | cons x xs ih =>
      intro i a h
      cases i with
      | zero =>
          simp only [List.getD, List.getElem?_cons_zero] at h
          simp [List.set, h]
      | succ j =>
          simp only [List.getD, List.getElem?_cons_succ] at h
          simp only [List.set, List.map_cons]
          rw [ih j a h]

theorem allHooks_congr_sigs (s1 s2 : Sim) (h : s1.sigs = s2.sigs) :
    allHooks s1 = allHooks s2 := by
  simp [allHooks, h]

theorem mem_allHooks_of_mem_hookList (s : Sim) (sg : SigId) (h : Hook)
    (hmem : h ∈ (sigOf s.sigs sg).hookList) : h ∈ allHooks s := by
  by_cases hl : sg < s.sigs.length
  · simp only [allHooks, List.mem_flatten, List.mem_map]
    refine ⟨(sigOf s.sigs sg).hookList, ⟨sigOf s.sigs sg, ?_, rfl⟩, hmem⟩
    have he : sigOf s.sigs sg = s.sigs[sg] := by
      simp [sigOf, List.getD, List.get?_eq_getElem?, List.getElem?_eq_getElem hl]
    rw [he]
    exact List.getElem_mem hl
  · have : sigOf s.sigs sg = defSig := by
      simp [sigOf, List.getD, List.getElem?_eq_none (Nat.le_of_not_lt hl)]
    rw [this] at hmem
    exact absurd hmem (List.not_mem_nil h)

theorem allHooks_sigs_set (s : Sim) (sg : SigId) (r : SigSt)
    (h : r.hookList = (sigOf s.sigs sg).hookList) :
    allHooks { s with sigs := s.sigs.set sg r } = allHooks s := by
  simp only [allHooks]
  rw [map_set_eq SigSt.hookList defSig s.sigs sg r h]

theorem allHooks_enqueueHead (s : Sim) (p : ProcId) :
    allHooks (enqueueHead s p) = allHooks s := rfl

theorem allHooks_hookPass (v nv : Nat) (l : List Hook) (s : Sim) :
    allHooks (hookPass v nv l s) = allHooks s :=
  allHooks_congr_sigs _ _ (hookPass_sigs v nv l s)

theorem allHooks_settleOne (s : Sim) (sg : SigId) :
    allHooks (settleOne s sg) = allHooks s := by
  simp only [settleOne]
  rw [allHooks_sigs_set]
  · exact allHooks_congr_sigs _ _ (hookPass_sigs _ _ _ _)
  · rfl

theorem allHooks_settleList :
    ∀ (l : List SigId) (s : Sim), allHooks (settleList l s) = allHooks s := by
  intro l
  induction l with
  | nil => intro s; rfl
  | cons sg rest ih =>
      intro s
      simp only [settleList]
      rw [ih, allHooks_settleOne]

theorem allHooks_settleSignals (s : Sim) : allHooks (settleSignals s) = allHooks s := by
  simp only [settleSignals]
  rw [allHooks_settleList]
  rfl

theorem allHooks_setSignal (s : Sim) (sg : SigId) (v : Nat) :
    allHooks (setSignal s sg v) = allHooks s := by
  simp only [setSignal]
  split
  · exact allHooks_sigs_set _ _ _ rfl
  · exact allHooks_sigs_set _ _ _ rfl

theorem allHooks_setProg (s : Sim) (p : ProcId) (k : Proc) :
    allHooks (setProg s p k) = allHooks s := rfl

theorem allHooks_delayCall (s : Sim) (p : ProcId) (n : Nat) :
    allHooks (delayCall s p n) = allHooks s := rfl

theorem allHooks_finishSim (s : Sim) : allHooks (finishSim s) = allHooks s := rfl

theorem allHooks_set_sub (s : Sim) (sg : SigId) (r : SigSt) (h : Hook)
    (hmem : h ∈ allHooks { s with sigs := s.sigs.set sg r }) :
    h ∈ r.hookList ∨ h ∈ allHooks s := by
  simp only [allHooks, List.mem_flatten, List.mem_map] at hmem ⊢
  obtain ⟨hl, ⟨sig, hsig, hfl⟩, hh⟩ := hmem
  rcases List.mem_or_eq_of_mem_set hsig with hs | hs
  · exact Or.inr ⟨hl, ⟨sig, hs, hfl⟩, hh⟩
  · subst hs
    exact Or.inl (hfl ▸ hh)

theorem allHooks_addHooks_mem (p : ProcId) :
    ∀ (hs : List (SigId × Nat)) (s : Sim) (h : Hook),
      h ∈ allHooks (addHooks s p hs) → h ∈ allHooks s ∨ h.proc = p := by
  intro hs
  induction hs with
  | nil => intro s h hm; exact Or.inl hm
  | cons he rest ih =>
      intro s h hm
      rcases he with ⟨sg, e⟩
      simp only [addHooks] at hm
      rcases ih _ h hm with hm2 | hm2
      · rcases allHooks_set_sub s sg _ h hm2 with hm3 | hm3
        · rcases List.mem_cons.1 hm3 with hm4 | hm4
          · subst hm4; exact Or.inr rfl
          · exact Or.inl (mem_allHooks_of_mem_hookList s sg h hm4)
        · exact Or.inl hm3
      · exact Or.inr hm2

theorem allHooks_stripHooks_mem (s : Sim) (p : ProcId) (h : Hook)
    (hmem : h ∈ allHooks (stripHooks s p)) : h ∈ allHooks s ∧ h.proc ≠ p := by
  simp only [stripHooks, allHooks, List.mem_flatten, List.mem_map, List.map_map] at hmem
  obtain ⟨hl, ⟨sig, hsig, hfl⟩, hh⟩ := hmem
  simp only [Function.comp] at hfl
  subst hfl
  have := List.mem_filter.1 hh
  refine ⟨?_, of_decide_eq_true this.2⟩
  simp only [allHooks, List.mem_flatten, List.mem_map]
  exact ⟨sig.hookList, ⟨sig, hsig, rfl⟩, this.1⟩

theorem stripHooks_hookFree (s : Sim) (p : ProcId) : hookFree (stripHooks s p) p :=
  fun h hm => (allHooks_stripHooks_mem s p h hm).2

/-! ## Structural lemmas about the delay-insertion walk -/

theorem insertGo_length (cur : ProcId) :
    ∀ (n : Nat) (qs : List ProcId) (procs : List ProcSt),
      (insertGo cur n qs procs).2.length = procs.length := by
  intro n qs
  induction qs generalizing n with
  | nil => intro procs; simp [insertGo]
  | cons p rest ih =>
      intro procs
      simp only [insertGo]
      split
      · simp
      · simp [ih]

theorem insertGo_mem_iff (cur : ProcId) :
    ∀ (n : Nat) (qs : List ProcId) (procs : List ProcSt) (r : ProcId),
      r ∈ (insertGo cur n qs procs).1 ↔ r = cur ∨ r ∈ qs := by
  intro n qs
  induction qs generalizing n with
  | nil =>
      intro procs r
      simp [insertGo]
  | cons p rest ih =>
      intro procs r
      simp only [insertGo]
      split <;> simp only [List.mem_cons, ih] <;> tauto

theorem insertGo_ne_nil (cur : ProcId) (n : Nat) (qs : List ProcId) (procs : List ProcSt) :
    (insertGo cur n qs procs).1 ≠ [] := by
  intro hc
  have : cur ∈ (insertGo cur n qs procs).1 := (insertGo_mem_iff cur n qs procs cur).2 (Or.inl rfl)
  rw [hc] at this
  exact List.not_mem_nil cur this

theorem insertGo_nodup (cur : ProcId) (n : Nat) (qs : List ProcId) (procs : List ProcSt)
    (hnd : qs.Nodup) (hcur : cur ∉ qs) : (insertGo cur n qs procs).1.Nodup := by
  obtain ⟨q1, q2, hsplit, hins, -, -⟩ := insertGo_split cur n qs procs hnd
  rw [hins]
  have hperm : (q1 ++ cur :: q2).Perm (cur :: (q1 ++ q2)) := List.perm_middle
  rw [hperm.nodup_iff]
  rw [List.nodup_cons]
  exact ⟨by rw [← hsplit]; exact hcur, by rw [← hsplit]; exact hnd⟩

/-- Processes neither inserted nor in the walked queue are untouched by the
insertion. -/
theorem insertGo_procOf_notmem (cur : ProcId) :
    ∀ (n : Nat) (qs : List ProcId) (procs : List ProcSt) (r : ProcId),
      r ∉ qs → r ≠ cur → procOf (insertGo cur n qs procs).2 r = procOf procs r := by
  intro n qs
  induction qs generalizing n with
  | nil =>
      intro procs r _ hrc
      simp only [insertGo]
      rw [procOf_set_ne _ _ _ _ (Ne.symm hrc)]
  | cons p rest ih =>
      intro procs r hr hrc
      have hrp : r ≠ p := fun hc => hr (hc ▸ List.mem_cons_self p rest)
      have hrrest : r ∉ rest := fun hc => hr (List.mem_cons_of_mem p hc)
      simp only [insertGo]
      split
      · rw [procOf_set_ne _ _ _ _ (Ne.symm hrc), procOf_set_ne _ _ _ _ (Ne.symm hrp)]
      · rw [procOf_set_ne _ _ _ _ (Ne.symm hrp)]
        exact ih _ procs r hrrest hrc

/-- After the insertion, every process of the original queue either keeps its
queue link or holds a non-null one (the walk writes only non-null links into
visited nodes). -/
theorem insertGo_pnext_mem (cur : ProcId) :
    ∀ (n : Nat) (qs : List ProcId) (procs : List ProcSt), qs.Nodup → cur ∉ qs →
      (∀ r ∈ qs, r < procs.length) →
      ∀ r ∈ qs, (procOf (insertGo cur n qs procs).2 r).pnext = (procOf procs r).pnext ∨
        (procOf (insertGo cur n qs procs).2 r).pnext ≠ none := by
  intro n qs
  induction qs generalizing n with
  | nil => intro procs _ _ _ r hr; exact absurd hr (List.not_mem_nil r)
  | cons p rest ih =>
      intro procs hnd hcur hlen r hr
      have hp : p ∉ rest := (List.nodup_cons.1 hnd).1
      have hndr : rest.Nodup := (List.nodup_cons.1 hnd).2
      have hcp : cur ≠ p := fun hc => hcur (hc ▸ List.mem_cons_self p rest)
      have hcr : cur ∉ rest := fun hc => hcur (List.mem_cons_of_mem p hc)
      simp only [insertGo]
      split
      · rcases List.mem_cons.1 hr with hr | hr
        · subst hr
          left
          rw [procOf_set_ne _ _ _ _ hcp]
          by_cases hpl : r < procs.length
          · rw [procOf_set_self _ _ _ hpl]
          · rw [List.set_eq_of_length_le (Nat.le_of_not_lt hpl)]
        · have hrp : r ≠ p := fun hc => hp (hc ▸ hr)
          have hcurr : cur ≠ r := fun hc => hcr (hc ▸ hr)
          left
          rw [procOf_set_ne _ _ _ _ hcurr, procOf_set_ne _ _ _ _ (Ne.symm hrp)]
      · rcases List.mem_cons.1 hr with hr | hr
        · subst hr
          right
          have hrl : r < (insertGo cur
              (if (procOf procs r).delay > 0 then n - (procOf procs r).delay else n)
              rest procs).2.length := by
            rw [insertGo_length]
            exact hlen r (List.mem_cons_self r rest)
          rw [procOf_set_self _ _ _ hrl]
          simp only [ne_eq]
          rw [Option.eq_none_iff_forall_not_mem]
          intro hc
          rcases hh : (insertGo cur
              (if (procOf procs r).delay > 0 then n - (procOf procs r).delay else n)
              rest procs).1 with _ | ⟨y, ys⟩
          · exact insertGo_ne_nil cur _ rest procs hh
          · simp [hh] at hc
        · have hrp : r ≠ p := fun hc => hp (hc ▸ hr)
          rw [procOf_set_ne _ _ _ _ (Ne.symm hrp)]
          exact ih _ procs hndr hcr (fun x hx => hlen x (List.mem_cons_of_mem p hx)) r hr

/-! ## Preservation of the scheduler invariant -/

/-- Transport of the invariant along states with the same queue, the same
process table and no more hooks. -/
theorem Inv_transport (s1 s2 : Sim) (hq : s2.queue = s1.queue) (hp : s2.procs = s1.procs)
    (hA : ∀ h ∈ allHooks s2, h ∈ allHooks s1) (hInv : Inv s1) : Inv s2 := by
  obtain ⟨h1, h2, h3, h4⟩ := hInv
  refine ⟨hq ▸ h1, ?_, ?_, ?_⟩
  · intro h hm hpn
    rw [hp] at hpn
    rw [hq]
    exact h2 h (hA h hm) hpn
  · intro h hm
    rw [hp]
    exact h3 h (hA h hm)
  · intro p hpmem
    rw [hp]
    exact h4 p (hq ▸ hpmem)

/-- The hook pass preserves the scheduler invariant (and queue
non-emptiness): an enqueue happens only for an owner whose queue link is
null, hence (guard soundness) not yet queued, and the link is then set to
the non-null old head. -/
theorem hookPass_inv (v nv : Nat) :
    ∀ (l : List Hook) (s : Sim), (∀ h ∈ l, h ∈ allHooks s) → Inv s → s.queue ≠ [] →
      Inv (hookPass v nv l s) ∧ (hookPass v nv l s).queue ≠ [] := by
  intro l
  induction l with
  | nil => intro s _ hInv hne; exact ⟨hInv, hne⟩
  | cons h0 rest ih =>
      intro s hl hInv hne
      obtain ⟨hnd, hgs, hhi, hqi⟩ := hInv
      simp only [hookPass]
      by_cases hg : (procOf s.procs h0.proc).pnext = none
      · rw [if_pos hg]
        by_cases hf : edgeFire h0.edge v nv = true
        · rw [if_pos hf]
          have hmem0 : h0 ∈ allHooks s := hl h0 (List.mem_cons_self _ _)
          have hnotq : h0.proc ∉ s.queue := hgs h0 hmem0 hg
          have hlen0 : h0.proc < s.procs.length := hhi h0 hmem0
          refine ih (enqueueHead s h0.proc) (fun h hm => hl h (List.mem_cons_of_mem _ hm))
            ⟨?_, ?_, ?_, ?_⟩ (by rw [enqueueHead_queue]; exact List.cons_ne_nil _ _)
          · rw [enqueueHead_queue]
            exact List.nodup_cons.2 ⟨hnotq, hnd⟩
          · intro h2 hm2 hpn2
            rw [allHooks_enqueueHead] at hm2
            rw [enqueueHead_queue]
            by_cases heq : h2.proc = h0.proc
            · rw [heq, enqueueHead_pnext_self s h0.proc hlen0] at hpn2
              rcases hqe : s.queue with _ | ⟨x, xs⟩
              · exact absurd hqe hne
              · rw [hqe] at hpn2
                simp at hpn2
            · rw [enqueueHead_pnext_ne s h0.proc h2.proc (fun hc => heq hc.symm)] at hpn2
              have := hgs h2 hm2 hpn2
              simp only [List.mem_cons]
              rintro (hc | hc)
              · exact heq hc
              · exact this hc
          · intro h2 hm2
            rw [allHooks_enqueueHead] at hm2
            rw [enqueueHead_procs_length]
            exact hhi h2 hm2
          · intro p hp
            rw [enqueueHead_queue] at hp
            rw [enqueueHead_procs_length]
            rcases List.mem_cons.1 hp with hp | hp
            · rw [hp]; exact hlen0
            · exact hqi p hp
        · rw [if_neg hf]
          exact ih s (fun h hm => hl h (List.mem_cons_of_mem _ hm)) ⟨hnd, hgs, hhi, hqi⟩ hne
      · rw [if_neg hg]
        exact ih s (fun h hm => hl h (List.mem_cons_of_mem _ hm)) ⟨hnd, hgs, hhi, hqi⟩ hne

theorem settleOne_inv (s : Sim) (sg : SigId) (hInv : Inv s) (hne : s.queue ≠ []) :
    Inv (settleOne s sg) ∧ (settleOne s sg).queue ≠ [] := by
  obtain ⟨hInv1, hne1⟩ := hookPass_inv (sigOf s.sigs sg).value (sigOf s.sigs sg).newValue
    (sigOf s.sigs sg).hookList s (fun h hm => mem_allHooks_of_mem_hookList s sg h hm) hInv hne
  constructor
  · refine Inv_transport (hookPass (sigOf s.sigs sg).value (sigOf s.sigs sg).newValue
      (sigOf s.sigs sg).hookList s) (settleOne s sg) rfl rfl ?_ hInv1
    intro h hm
    rw [allHooks_settleOne s sg] at hm
    rw [allHooks_hookPass]
    exact hm
  · exact hne1

theorem settleList_inv :
    ∀ (l : List SigId) (s : Sim), Inv s → s.queue ≠ [] →
      Inv (settleList l s) ∧ (settleList l s).queue ≠ [] := by
  intro l
  induction l with
  | nil => intro s hInv hne; exact ⟨hInv, hne⟩
  | cons sg rest ih =>
      intro s hInv hne
      obtain ⟨hInv1, hne1⟩ := settleOne_inv s sg hInv hne
      exact ih (settleOne s sg) hInv1 hne1

theorem settleSignals_inv (s : Sim) (hInv : Inv s) (hne : s.queue ≠ []) :
    Inv (settleSignals s) ∧ (settleSignals s).queue ≠ [] := by
  simp only [settleSignals]
  refine settleList_inv s.activeSignals _ ?_ hne
  exact Inv_transport s _ rfl rfl (fun h hm => hm) hInv

theorem setProg_pnext (s : Sim) (p : ProcId) (k : Proc) (q : ProcId) :
    (procOf (setProg s p k).procs q).pnext = (procOf s.procs q).pnext := by
  simp only [setProg]
  exact procOf_set_pnext s.procs p q (fun x => { x with prog := k }) (fun _ => rfl)

theorem setProg_delay (s : Sim) (p : ProcId) (k : Proc) (q : ProcId) :
    (procOf (setProg s p k).procs q).delay = (procOf s.procs q).delay := by
  simp only [setProg]
  exact procOf_set_delay s.procs p q (fun x => { x with prog := k }) (fun _ => rfl)

theorem setProg_queue (s : Sim) (p : ProcId) (k : Proc) : (setProg s p k).queue = s.queue := rfl

theorem setProg_procs_length (s : Sim) (p : ProcId) (k : Proc) :
    (setProg s p k).procs.length = s.procs.length := by
  simp [setProg]

theorem setProg_inv (s : Sim) (p : ProcId) (k : Proc) (hInv : Inv s) : Inv (setProg s p k) := by
  obtain ⟨h1, h2, h3, h4⟩ := hInv
  refine ⟨h1, ?_, ?_, ?_⟩
  · intro h hm hpn
    rw [allHooks_setProg] at hm
    rw [setProg_pnext] at hpn
    exact h2 h hm hpn
  · intro h hm
    rw [allHooks_setProg] at hm
    rw [setProg_procs_length]
    exact h3 h hm
  · intro q hq
    rw [setProg_procs_length]
    exact h4 q hq

theorem finishSim_inv (s : Sim) (hInv : Inv s) : Inv (finishSim s) := by
  obtain ⟨-, -, h3, -⟩ := hInv
  refine ⟨List.nodup_nil, ?_, h3, ?_⟩
  · intro h _ _
    exact List.not_mem_nil h.proc
  · intro q hq
    exact absurd hq (List.not_mem_nil q)

/-- A slice of a process that is dequeued (not in the queue, null link, no
hooks of its own, valid index) preserves the scheduler invariant. -/
theorem runSlice_inv :
    ∀ (k : Proc) (s : Sim) (c : ProcId), Inv s → c ∉ s.queue → c < s.procs.length →
      hookFree s c → (procOf s.procs c).pnext = none → Inv (runSlice s c k) := by
  intro k
  induction k with
  | ret =>
      intro s c hInv _ _ _ _
      exact setProg_inv s c Proc.ret hInv
  | set sg v k ih =>
      intro s c hInv hq hlen hfree hpn
      simp only [runSlice]
      refine ih (setSignal s sg v) c ?_ ?_ ?_ ?_ ?_
      · exact Inv_transport s _ (setSignal_queue s sg v) (setSignal_procs s sg v)
          (fun h hm => by rwa [allHooks_setSignal] at hm) hInv
      · rw [setSignal_queue]; exact hq
      · rw [setSignal_procs]; exact hlen
      · intro h hm
        rw [allHooks_setSignal] at hm
        exact hfree h hm
      · rw [setSignal_procs]; exact hpn
  | fin k ih =>
      intro s c hInv hq hlen hfree hpn
      simp only [runSlice]
      refine ih (finishSim s) c (finishSim_inv s hInv) ?_ hlen hfree hpn
      exact List.not_mem_nil c
  | delay n k _ =>
      intro s c hInv hq hlen hfree hpn
      simp only [runSlice]
      have hInv2 : Inv (setProg s c k) := setProg_inv s c k hInv
      obtain ⟨hnd2, hgs2, hhi2, hqi2⟩ := hInv2
      have hq2 : c ∉ (setProg s c k).queue := hq
      have hlen2 : c < (setProg s c k).procs.length := by
        rw [setProg_procs_length]; exact hlen
      refine ⟨?_, ?_, ?_, ?_⟩
      · exact insertGo_nodup c _ _ _ hnd2 hq2
      · intro h hm hpn2
        rw [allHooks_delayCall, allHooks_setProg] at hm
        have hhc : h.proc ≠ c := hfree h hm
        by_cases hin : h.proc ∈ (setProg s c k).queue
        · rcases insertGo_pnext_mem c (n % U64) (setProg s c k).queue (setProg s c k).procs
            hnd2 hq2 hqi2 h.proc hin with hsame | hnn
          · rw [show (procOf (delayCall (setProg s c k) c n).procs h.proc).pnext =
                (procOf (insertGo c (n % U64) (setProg s c k).queue
                  (setProg s c k).procs).2 h.proc).pnext from rfl, hsame] at hpn2
            exact absurd hin (hgs2 h hm hpn2)
          · rw [show (procOf (delayCall (setProg s c k) c n).procs h.proc).pnext =
                (procOf (insertGo c (n % U64) (setProg s c k).queue
                  (setProg s c k).procs).2 h.proc).pnext from rfl] at hpn2
            exact absurd hpn2 hnn
        · have huntouched := insertGo_procOf_notmem c (n % U64) (setProg s c k).queue
            (setProg s c k).procs h.proc hin hhc
          rw [show (procOf (delayCall (setProg s c k) c n).procs h.proc).pnext =
              (procOf (insertGo c (n % U64) (setProg s c k).queue
                (setProg s c k).procs).2 h.proc).pnext from rfl, huntouched] at hpn2
          intro hcmem
          rcases (insertGo_mem_iff c (n % U64) (setProg s c k).queue
            (setProg s c k).procs h.proc).1 hcmem with hc | hc
          · exact hhc hc
          · exact hin hc
      · intro h hm
        rw [allHooks_delayCall, allHooks_setProg] at hm
        rw [show (delayCall (setProg s c k) c n).procs.length =
          (insertGo c (n % U64) (setProg s c k).queue (setProg s c k).procs).2.length from rfl,
          insertGo_length]
        exact hhi2 h hm
      · intro q hqm
        rw [show (delayCall (setProg s c k) c n).procs.length =
          (insertGo c (n % U64) (setProg s c k).queue (setProg s c k).procs).2.length from rfl,
          insertGo_length]
        rcases (insertGo_mem_iff c (n % U64) (setProg s c k).queue
          (setProg s c k).procs q).1 hqm with hc | hc
        · rw [hc]; exact hlen2
        · exact hqi2 q hc
  | wait hs k _ =>
      intro s c hInv hq hlen hfree hpn
      simp only [runSlice]
      have hInv2 : Inv (setProg s c k) := setProg_inv s c k hInv
      obtain ⟨hnd2, hgs2, hhi2, hqi2⟩ := hInv2
      refine ⟨?_, ?_, ?_, ?_⟩
      · rw [addHooks_queue]; exact hnd2
      · intro h hm hpn2
        rw [addHooks_queue]
        rcases allHooks_addHooks_mem c hs (setProg s c k) h hm with hm2 | hm2
        · have := hgs2 h hm2
          rw [show (procOf (addHooks (setProg s c k) c hs).procs h.proc).pnext =
            (procOf (setProg s c k).procs h.proc).pnext from by rw [addHooks_procs]] at hpn2
          exact this hpn2
        · rw [hm2]
          exact hq
      · intro h hm
        rcases allHooks_addHooks_mem c hs (setProg s c k) h hm with hm2 | hm2
        · rw [show (addHooks (setProg s c k) c hs).procs.length =
            (setProg s c k).procs.length from by rw [addHooks_procs]]
          exact hhi2 h hm2
        · rw [hm2, show (addHooks (setProg s c k) c hs).procs.length =
            (setProg s c k).procs.length from by rw [addHooks_procs],
            setProg_procs_length]
          exact hlen
      · intro q hqm
        rw [addHooks_queue] at hqm
        rw [show (addHooks (setProg s c k) c hs).procs.length =
          (setProg s c k).procs.length from by rw [addHooks_procs]]
        exact hqi2 q hqm

/-- Dequeue and resume preserves the scheduler invariant. -/
theorem dequeueResume_inv (s1 : Sim) (hInv : Inv s1) : Inv (dequeueResume s1).1 := by
  rcases hq : s1.queue with _ | ⟨c, rest⟩
  · simp only [dequeueResume, hq]
    exact hInv
  · obtain ⟨hnd, hgs, hhi, hqi⟩ := hInv
    have hcl : c < s1.procs.length := hqi c (by rw [hq]; exact List.mem_cons_self _ _)
    have hcnotin : c ∉ rest := by
      rw [hq] at hnd
      exact (List.nodup_cons.1 hnd).1
    have hndrest : rest.Nodup := by
      rw [hq] at hnd
      exact (List.nodup_cons.1 hnd).2
    simp only [dequeueResume, hq]
    set st2 : Sim := ({ s1 with
      queue := rest
      cur := some c
      procs := s1.procs.set c { procOf s1.procs c with pnext := none } } : Sim) with hst2
    have h2A : allHooks st2 = allHooks s1 := rfl
    have h2pn : ∀ q, q ≠ c →
        (procOf st2.procs q).pnext = (procOf s1.procs q).pnext := by
      intro q hqc
      rw [hst2]
      exact congrArg ProcSt.pnext (procOf_set_ne _ _ _ _ (fun hcc => hqc hcc.symm))
    have h2pnc : (procOf st2.procs c).pnext = none := by
      rw [hst2]
      rw [procOf_set_self _ _ _ hcl]
    have h2len : st2.procs.length = s1.procs.length := by
      rw [hst2]
      simp
    have hInv2 : Inv st2 := by
      refine ⟨hndrest, ?_, ?_, ?_⟩
      · intro h hm hpn
        rw [h2A] at hm
        by_cases hhc : h.proc = c
        · rw [hhc]
          exact hcnotin
        · rw [h2pn h.proc hhc] at hpn
          have := hgs h hm hpn
          rw [hq] at this
          intro hmem
          exact this (List.mem_cons_of_mem c hmem)
      · intro h hm
        rw [h2A] at hm
        rw [h2len]
        exact hhi h hm
      · intro q hqm
        rw [h2len]
        exact hqi q (by rw [hq]; exact List.mem_cons_of_mem c hqm)
    set st3 : Sim := if (procOf st2.procs c).delay ≠ 0 then
        { st2 with time := (st2.time + (procOf st2.procs c).delay) % U64 } else st2 with hst3
    have h3q : st3.queue = st2.queue := by rw [hst3]; split <;> rfl
    have h3p : st3.procs = st2.procs := by rw [hst3]; split <;> rfl
    have h3A : allHooks st3 = allHooks st2 := by rw [hst3]; split <;> rfl
    have hInv3 : Inv st3 := Inv_transport st2 st3 h3q h3p (fun h hm => h3A ▸ hm) hInv2
    have hInv4 : Inv (stripHooks st3 c) :=
      Inv_transport st3 _ rfl rfl (fun h hm => (allHooks_stripHooks_mem st3 c h hm).1) hInv3
    refine runSlice_inv _ (stripHooks st3 c) c hInv4 ?_ ?_ ?_ ?_
    · show c ∉ st3.queue
      rw [h3q]
      exact hcnotin
    · show c < st3.procs.length
      rw [h3p, h2len]
      exact hcl
    · exact stripHooks_hookFree st3 c
    · show (procOf st3.procs c).pnext = none
      rw [h3p]
      exact h2pnc

theorem runStep_inv (s : Sim) (hInv : Inv s) : Inv (runStep s).1 := by
  rcases hq : s.queue with _ | ⟨h, t⟩
  · simp only [runStep, hq]
    exact hInv
  · by_cases hd : (procOf s.procs h).delay ≠ 0
    · rw [runStep_eq_pos s h t hq hd]
      exact dequeueResume_inv _
        (settleSignals_inv s hInv (by rw [hq]; exact List.cons_ne_nil h t)).1
    · rw [runStep_eq_zero s h t hq (by omega)]
      exact dequeueResume_inv s hInv

theorem buildQueue_sigs :
    ∀ (l : List ProcId) (s : Sim), (buildQueue l s).sigs = s.sigs := by
  intro l
  induction l with
  | nil => intro s; rfl
  | cons i rest ih => intro s; simp only [buildQueue]; rw [ih]

theorem buildQueue_procs_length :
    ∀ (l : List ProcId) (s : Sim), (buildQueue l s).procs.length = s.procs.length := by
  intro l
  induction l with
  | nil => intro s; rfl
  | cons i rest ih =>
      intro s
      simp only [buildQueue]
      rw [ih]
      simp

theorem allHooks_initSim (sigVals : List Nat) (progs : List Proc) :
    allHooks (initSim sigVals progs) = [] := by
  simp only [allHooks, initSim]
  induction sigVals with
  | nil => rfl
  | cons v rest ih => simpa [initSig] using ih

/-- The scheduler invariant holds at the start of the run loop: the initial
queue is the reversed registration order (no duplicates, all indices valid)
and no hooks exist yet. -/
theorem inv_init (sigVals : List Nat) (progs : List Proc) :
    Inv (buildQueue (List.range progs.length) (initSim sigVals progs)) := by
  have hA : allHooks (buildQueue (List.range progs.length) (initSim sigVals progs)) = [] := by
    rw [allHooks_congr_sigs _ (initSim sigVals progs) (buildQueue_sigs _ _)]
    exact allHooks_initSim sigVals progs
  refine ⟨?_, ?_, ?_, ?_⟩
  · rw [buildQueue_queue]
    simp [initSim, List.nodup_range]
  · intro h hm
    rw [hA] at hm
    exact absurd hm (List.not_mem_nil h)
  · intro h hm
    rw [hA] at hm
    exact absurd hm (List.not_mem_nil h)
  · intro q hqm
    rw [buildQueue_queue] at hqm
    rw [buildQueue_procs_length]
    simp only [initSim] at hqm ⊢
    simp only [List.append_nil, List.mem_reverse, List.mem_range] at hqm
    simpa using hqm

/-- The scheduler invariant holds at every reachable iteration boundary. -/
theorem inv_reach (sigVals : List Nat) (progs : List Proc) :
    ∀ n : Nat, Inv (reachState sigVals progs n) := by
  have hstep : ∀ (s : Sim) (n : Nat), Inv s → Inv (stepN s n) := by
    intro s n
    induction n generalizing s with
    | zero => intro h; exact h
    | succ m ih =>
        intro h
        exact ih (runStep s).1 (runStep_inv s h)
  intro n
  exact hstep _ n (inv_init sigVals progs)

/-! ## Settlement wakes every process with a firing binding -/

theorem hookPass_queue_mono (v nv : Nat) (l : List Hook) (s : Sim) (p : ProcId)
    (h : p ∈ s.queue) : p ∈ (hookPass v nv l s).queue := by
  obtain ⟨pre, hq, -⟩ := hookPass_ext v nv l s
  rw [hq]
  exact List.mem_append_right pre h

theorem settleOne_queue_mono (s : Sim) (sg : SigId) (p : ProcId)
    (h : p ∈ s.queue) : p ∈ (settleOne s sg).queue := by
  obtain ⟨pre, hq, -⟩ := settleOne_ext s sg
  rw [hq]
  exact List.mem_append_right pre h

theorem settleList_queue_mono :
    ∀ (l : List SigId) (s : Sim) (p : ProcId), p ∈ s.queue → p ∈ (settleList l s).queue := by
  intro l
  induction l with
  | nil => intro s p h; exact h
  | cons sg rest ih =>
      intro s p h
      exact ih _ p (settleOne_queue_mono s sg p h)

/-- During a hook pass, a process's queue link is unchanged unless the
process was pushed on the queue. -/
theorem hookPass_pnext_or (v nv : Nat) :
    ∀ (l : List Hook) (s : Sim) (p : ProcId),
      (procOf (hookPass v nv l s).procs p).pnext = (procOf s.procs p).pnext ∨
        p ∈ (hookPass v nv l s).queue := by
  intro l
  induction l with
  | nil => intro s p; exact Or.inl rfl
  | cons h0 rest ih =>
      intro s p
      simp only [hookPass]
      by_cases hg : (procOf s.procs h0.proc).pnext = none
      · rw [if_pos hg]
        by_cases hf : edgeFire h0.edge v nv = true
        · rw [if_pos hf]
          by_cases hp : h0.proc = p
          · right
            refine hookPass_queue_mono v nv rest _ p ?_
            rw [enqueueHead_queue, hp]
            exact List.mem_cons_self _ _
          · rcases ih (enqueueHead s h0.proc) p with hcase | hcase
            · left
              rw [hcase]
              exact enqueueHead_pnext_ne s h0.proc p hp
            · right
              exact hcase
        · rw [if_neg hf]
          exact ih s p
      · rw [if_neg hg]
        exact ih s p

theorem settleOne_pnext_or (s : Sim) (sg : SigId) (p : ProcId) :
    (procOf (settleOne s sg).procs p).pnext = (procOf s.procs p).pnext ∨
      p ∈ (settleOne s sg).queue := by
  rcases hookPass_pnext_or (sigOf s.sigs sg).value (sigOf s.sigs sg).newValue
    (sigOf s.sigs sg).hookList s p with hcase | hcase
  · exact Or.inl hcase
  · right
    rw [settleOne_queue_eq]
    exact hcase

/-- If some hook of the visited list belongs to `p` and its edge test fires,
and `p` is queued or has a null link, then `p` is queued after the pass. -/
theorem hookPass_wakes (v nv : Nat) :
    ∀ (l : List Hook) (s : Sim) (p : ProcId),
      (∃ h ∈ l, h.proc = p ∧ edgeFire h.edge v nv = true) →
      (p ∈ s.queue ∨ (procOf s.procs p).pnext = none) →
      p ∈ (hookPass v nv l s).queue := by
  intro l
  induction l with
  | nil =>
      intro s p hex _
      obtain ⟨h, hm, -⟩ := hex
      exact absurd hm (List.not_mem_nil h)
  | cons h0 rest ih =>
      intro s p hex hdis
      simp only [hookPass]
      by_cases hg : (procOf s.procs h0.proc).pnext = none
      · rw [if_pos hg]
        by_cases hf : edgeFire h0.edge v nv = true
        · rw [if_pos hf]
          by_cases hp : h0.proc = p
          · refine hookPass_queue_mono v nv rest _ p ?_
            rw [enqueueHead_queue, hp]
            exact List.mem_cons_self _ _
          · obtain ⟨h, hm, hhp, hhf⟩ := hex
            rcases List.mem_cons.1 hm with hm | hm
            · exact absurd (hm ▸ hhp) hp
            · refine ih (enqueueHead s h0.proc) p ⟨h, hm, hhp, hhf⟩ ?_
              rcases hdis with hdis | hdis
              · left
                rw [enqueueHead_queue]
                exact List.mem_cons_of_mem _ hdis
              · right
                rw [enqueueHead_pnext_ne s h0.proc p hp]
                exact hdis
        · rw [if_neg hf]
          obtain ⟨h, hm, hhp, hhf⟩ := hex
          rcases List.mem_cons.1 hm with hm | hm
          · rw [hm] at hhf
            exact absurd hhf hf
          · exact ih s p ⟨h, hm, hhp, hhf⟩ hdis
      · rw [if_neg hg]
        obtain ⟨h, hm, hhp, hhf⟩ := hex
        rcases List.mem_cons.1 hm with hm | hm
        · rcases hdis with hdis | hdis
          · exact hookPass_queue_mono v nv rest s p hdis
          · rw [← hm, hhp] at hg
            exact absurd hdis hg
        · exact ih s p ⟨h, hm, hhp, hhf⟩ hdis

/-- Draining the active list wakes `p` whenever some listed signal carries a
firing binding of `p` and `p` is queued or unlinked. -/
theorem settleList_wakes :
    ∀ (l : List SigId) (s : Sim) (p : ProcId) (a : SigId), a ∈ l →
      (∃ h ∈ (sigOf s.sigs a).hookList, h.proc = p ∧
        edgeFire h.edge (sigOf s.sigs a).value (sigOf s.sigs a).newValue = true) →
      (p ∈ s.queue ∨ (procOf s.procs p).pnext = none) →
      p ∈ (settleList l s).queue := by
  intro l
  induction l with
  | nil => intro s p a ha _ _; exact absurd ha (List.not_mem_nil a)
  | cons sg rest ih =>
      intro s p a ha hex hdis
      by_cases heq : sg = a
      · subst heq
        simp only [settleList]
        refine settleList_queue_mono rest _ p ?_
        rw [settleOne_queue_eq]
        exact hookPass_wakes _ _ _ s p hex hdis
      · rcases List.mem_cons.1 ha with ha2 | ha2
        · exact absurd ha2.symm heq
        · simp only [settleList]
          refine ih (settleOne s sg) p a ha2 ?_ ?_
          · rw [settleOne_sig_ne s sg a heq]
            exact hex
          · rcases hdis with hdis | hdis
            · exact Or.inl (settleOne_queue_mono s sg p hdis)
            · rcases settleOne_pnext_or s sg p with hcase | hcase
              · exact Or.inr (hcase.trans hdis)
              · exact Or.inl hcase

theorem settleSignals_wakes (s : Sim) (p : ProcId) (a : SigId)
    (ha : a ∈ s.activeSignals)
    (hex : ∃ h ∈ (sigOf s.sigs a).hookList, h.proc = p ∧
      edgeFire h.edge (sigOf s.sigs a).value (sigOf s.sigs a).newValue = true)
    (hdis : p ∈ s.queue ∨ (procOf s.procs p).pnext = none) :
    p ∈ (settleSignals s).queue := by
  simp only [settleSignals]
  exact settleList_wakes s.activeSignals _ p a ha hex hdis

/-- C1: at every reachable scheduler state the event queue is duplicate-free
(a process appears at most once); the double-activation guard
(`hook->process.next == nullptr`) makes this hold through settlement: from
any state satisfying the scheduler invariant with a non-empty queue,
settlement again yields a duplicate-free queue, and a process not yet queued
(null link) whose bindings fire for two distinct signals that both change in
the same cycle ends up in the queue exactly once.  In the concrete run of
`exC1progs` — process 0 waits on both signals, process 1 changes both in one
cycle — the trace shows process 0, after its initial activation, is resumed
exactly once for that delta cycle. -/
theorem c1_queue_at_most_once :
    (∀ (sigVals : List Nat) (progs : List Proc) (n : Nat),
      (reachState sigVals progs n).queue.Nodup) ∧
    (∀ s : Sim, Inv s → s.queue ≠ [] →
      (settleSignals s).queue.Nodup ∧
      (∀ (p : ProcId) (a b : SigId), a ≠ b → p ∉ s.queue →
        (procOf s.procs p).pnext = none →
        a ∈ s.activeSignals → b ∈ s.activeSignals →
        (∃ h ∈ (sigOf s.sigs a).hookList, h.proc = p ∧
          edgeFire h.edge (sigOf s.sigs a).value (sigOf s.sigs a).newValue = true) →
        (∃ h ∈ (sigOf s.sigs b).hookList, h.proc = p ∧
          edgeFire h.edge (sigOf s.sigs b).value (sigOf s.sigs b).newValue = true) →
        List.count p (settleSignals s).queue = 1)) ∧
    ((simRun [0, 0] exC1progs 10).2 =
      [Ev.resumed 1 0, Ev.resumed 0 0, Ev.settled 0, Ev.resumed 0 0,
       Ev.settled 0, Ev.advanced 1, Ev.resumed 1 1] ∧
      ((simRun [0, 0] exC1progs 10).2.drop 2).count (Ev.resumed 0 0) = 1) := by
  refine ⟨?_, ?_, by decide, by decide⟩
  · intro sigVals progs n
    exact (inv_reach sigVals progs n).1
  · intro s hInv hne
    have hInvS := settleSignals_inv s hInv hne
    refine ⟨hInvS.1.1, ?_⟩
    intro p a b _ _ hpn ha _ hexa _
    have hmem : p ∈ (settleSignals s).queue :=
      settleSignals_wakes s p a ha hexa (Or.inr hpn)
    exact List.count_eq_one_of_mem hInvS.1.1 hmem

/-- Witness for C1: at the reached state of the `exC1progs` run just before
its settlement, process 0 (unqueued, null link, hooked on both changing
signals 0 and 1) is counted exactly once in the settled queue. -/
theorem c1_queue_at_most_once_witness :
    (settleSignals (reachState [0, 0] exC1progs 2)).queue.Nodup ∧
    List.count 0 (settleSignals (reachState [0, 0] exC1progs 2)).queue = 1 := by
  have h := c1_queue_at_most_once.2.1 (reachState [0, 0] exC1progs 2)
    (inv_reach [0, 0] exC1progs 2) (by decide)
  exact ⟨h.1, h.2 0 1 0 (by decide) (by decide) (by decide) (by decide) (by decide)
    (by decide) (by decide)⟩

/-- Witness for C8 (amended): inserting process 2 with delay 0 into the
queue `[0, 1]` (process 0 due now, process 1 in 5 ticks) lands after the
same-tick process 0 and before process 1. -/
theorem c8_same_tick_order_witness :
    ([0, 1] : List ProcId).Nodup ∧
    ∃ q1 q2, ([0, 1] : List ProcId) = q1 ++ q2 ∧
      (insertGo 2 0 [0, 1]
        [initProc Proc.ret, { pnext := none, delay := 5, prog := Proc.ret },
         initProc Proc.ret]).1 = q1 ++ 2 :: q2 ∧
      (∀ r ∈ q1, wakeOffset
        [initProc Proc.ret, { pnext := none, delay := 5, prog := Proc.ret },
         initProc Proc.ret] [0, 1] r ≤ 0) ∧
      (∀ r ∈ q2.head?.toList, 0 < wakeOffset
        [initProc Proc.ret, { pnext := none, delay := 5, prog := Proc.ret },
         initProc Proc.ret] [0, 1] r) :=
  ⟨by decide,
    c8_same_tick_order.2.1 2 0 [0, 1]
      [initProc Proc.ret, { pnext := none, delay := 5, prog := Proc.ret },
       initProc Proc.ret] (by decide)⟩

/-! ## Wake offsets under insertion and settlement -/

theorem wakeOffset_cons (procs : List ProcSt) (x : ProcId) (t : List ProcId) (p : ProcId) :
    wakeOffset procs (x :: t) p =
      if x = p then (procOf procs x).delay
      else (procOf procs x).delay + wakeOffset procs t p := rfl

theorem wakeOffset_congr_on (procs1 procs2 : List ProcSt) :
    ∀ (l : List ProcId) (p : ProcId),
      (∀ x ∈ l, (procOf procs2 x).delay = (procOf procs1 x).delay) →
      wakeOffset procs2 l p = wakeOffset procs1 l p := by
  intro l
  induction l with
  | nil => intro p _; rfl
  | cons x t ih =>
      intro p hcong
      rw [wakeOffset_cons, wakeOffset_cons, hcong x (List.mem_cons_self _ _),
        ih p (fun y hy => hcong y (List.mem_cons_of_mem _ hy))]

theorem wakeOffset_append_ge (procs : List ProcSt) :
    ∀ (pre q : List ProcId) (p : ProcId), p ∉ pre →
      wakeOffset procs q p ≤ wakeOffset procs (pre ++ q) p := by
  intro pre
  induction pre with
  | nil => intro q p _; exact Nat.le_refl _
  | cons x t ih =>
      intro q p hp
      have hxp : x ≠ p := fun hc => hp (hc ▸ List.mem_cons_self _ _)
      rw [List.cons_append, wakeOffset_cons, if_neg hxp]
      have := ih q p (fun hc => hp (List.mem_cons_of_mem _ hc))
      omega

/-- The inserted process's wake offset is exactly the requested delay. -/
theorem insertGo_offset_self (cur : ProcId) :
    ∀ (n : Nat) (qs : List ProcId) (procs : List ProcSt), qs.Nodup → cur ∉ qs →
      cur < procs.length → (∀ r ∈ qs, r < procs.length) →
      wakeOffset (insertGo cur n qs procs).2 (insertGo cur n qs procs).1 cur = n := by
  intro n qs
  induction qs generalizing n with
  | nil =>
      intro procs _ _ hcl _
      simp only [insertGo, wakeOffset_cons, if_pos rfl]
      rw [procOf_set_self _ _ _ hcl]
      simp
  | cons p rest ih =>
      intro procs hnd hcur hcl hlen
      have hp : p ∉ rest := (List.nodup_cons.1 hnd).1
      have hndr : rest.Nodup := (List.nodup_cons.1 hnd).2
      have hcp : cur ≠ p := fun hc => hcur (hc ▸ List.mem_cons_self p rest)
      have hcr : cur ∉ rest := fun hc => hcur (List.mem_cons_of_mem p hc)
      have hpl : p < procs.length := hlen p (List.mem_cons_self _ _)
      simp only [insertGo]
      by_cases hgt : (procOf procs p).delay > n
      · rw [if_pos hgt]
        simp only [wakeOffset_cons, if_pos rfl]
        have hcl2 : cur < (procs.set p
            { procOf procs p with delay := (procOf procs p).delay - n }).length := by
          simpa using hcl
        rw [procOf_set_self _ _ _ hcl2]
        simp
      · rw [if_neg hgt]
        have hle : (procOf procs p).delay ≤ n := by omega
        set n1 := if (procOf procs p).delay > 0 then n - (procOf procs p).delay else n with hn1
        have hn1e : (procOf procs p).delay + n1 = n := by
          rw [hn1]; split <;> omega
        rw [wakeOffset_cons, if_neg hcp.symm]
        have hdp : (procOf ((insertGo cur n1 rest procs).2.set p
            { procOf (insertGo cur n1 rest procs).2 p with
              pnext := (insertGo cur n1 rest procs).1.head? }) p).delay =
            (procOf procs p).delay := by
          rw [procOf_set_pnextOnly_delay]
          rw [insertGo_procOf_notmem cur n1 rest procs p hp (fun hc => hcp hc.symm)]
        have hcong : wakeOffset ((insertGo cur n1 rest procs).2.set p
            { procOf (insertGo cur n1 rest procs).2 p with
              pnext := (insertGo cur n1 rest procs).1.head? })
            (insertGo cur n1 rest procs).1 cur =
            wakeOffset (insertGo cur n1 rest procs).2 (insertGo cur n1 rest procs).1 cur := by
          refine wakeOffset_congr_on _ _ _ cur (fun y _ => ?_)
          rw [procOf_set_pnextOnly_delay]
        rw [hdp, hcong, ih n1 procs hndr hcr hcl
          (fun r hr => hlen r (List.mem_cons_of_mem p hr))]
        exact hn1e

/-- The insertion leaves every other queued process's wake offset
unchanged. -/
theorem insertGo_offset_other (cur : ProcId) :
    ∀ (n : Nat) (qs : List ProcId) (procs : List ProcSt), qs.Nodup → cur ∉ qs →
      cur < procs.length → (∀ r ∈ qs, r < procs.length) →
      ∀ r ∈ qs, wakeOffset (insertGo cur n qs procs).2 (insertGo cur n qs procs).1 r =
        wakeOffset procs qs r := by
  intro n qs
  induction qs generalizing n with
  | nil => intro procs _ _ _ _ r hr; exact absurd hr (List.not_mem_nil r)
  | cons p rest ih =>
      intro procs hnd hcur hcl hlen r hr
      have hp : p ∉ rest := (List.nodup_cons.1 hnd).1
      have hndr : rest.Nodup := (List.nodup_cons.1 hnd).2
      have hcp : cur ≠ p := fun hc => hcur (hc ▸ List.mem_cons_self p rest)
      have hcr : cur ∉ rest := fun hc => hcur (List.mem_cons_of_mem p hc)
      have hpl : p < procs.length := hlen p (List.mem_cons_self _ _)
      have hrcur : r ≠ cur := by
        intro hc
        subst hc
        exact hcur hr
      simp only [insertGo]
      by_cases hgt : (procOf procs p).delay > n
      · rw [if_pos hgt]
        set procs2 := (procs.set p
          { procOf procs p with delay := (procOf procs p).delay - n }).set cur
          { procOf (procs.set p
              { procOf procs p with delay := (procOf procs p).delay - n }) cur with
            delay := n, pnext := some p } with hprocs2
        have hd2cur : (procOf procs2 cur).delay = n := by
          rw [hprocs2]
          have : cur < (procs.set p
              { procOf procs p with delay := (procOf procs p).delay - n }).length := by
            simpa using hcl
          rw [procOf_set_self _ _ _ this]
        have hd2p : (procOf procs2 p).delay = (procOf procs p).delay - n := by
          rw [hprocs2, procOf_set_ne _ _ _ _ hcp, procOf_set_self _ _ _ hpl]
        have hd2rest : ∀ x ∈ rest, (procOf procs2 x).delay = (procOf procs x).delay := by
          intro x hx
          have hxp : p ≠ x := fun hc => hp (hc ▸ hx)
          have hxc : cur ≠ x := fun hc => hcr (hc ▸ hx)
          rw [hprocs2, procOf_set_ne _ _ _ _ hxc, procOf_set_ne _ _ _ _ hxp]
        rw [wakeOffset_cons, if_neg hrcur.symm, hd2cur]
        rcases List.mem_cons.1 hr with hr2 | hr2
        · subst hr2
          rw [wakeOffset_cons, if_pos rfl, hd2p, wakeOffset_cons, if_pos rfl]
          omega
        · have hrp : p ≠ r := fun hc => hp (hc ▸ hr2)
          rw [wakeOffset_cons, if_neg hrp, hd2p,
            wakeOffset_congr_on procs procs2 rest r hd2rest,
            wakeOffset_cons, if_neg hrp]
          omega
      · rw [if_neg hgt]
        set n1 := if (procOf procs p).delay > 0 then n - (procOf procs p).delay else n with hn1
        have hd2p : (procOf ((insertGo cur n1 rest procs).2.set p
            { procOf (insertGo cur n1 rest procs).2 p with
              pnext := (insertGo cur n1 rest procs).1.head? }) p).delay =
            (procOf procs p).delay := by
          rw [procOf_set_pnextOnly_delay]
          rw [insertGo_procOf_notmem cur n1 rest procs p hp (fun hc => hcp hc.symm)]
        have hcong : ∀ x, wakeOffset ((insertGo cur n1 rest procs).2.set p
            { procOf (insertGo cur n1 rest procs).2 p with
              pnext := (insertGo cur n1 rest procs).1.head? })
            (insertGo cur n1 rest procs).1 x =
            wakeOffset (insertGo cur n1 rest procs).2 (insertGo cur n1 rest procs).1 x := by
          intro x
          refine wakeOffset_congr_on _ _ _ x (fun y _ => ?_)
          rw [procOf_set_pnextOnly_delay]
        rcases List.mem_cons.1 hr with hr2 | hr2
        · subst hr2
          rw [wakeOffset_cons, if_pos rfl, wakeOffset_cons, if_pos rfl, hd2p]
        · have hrp : p ≠ r := fun hc => hp (hc ▸ hr2)
          rw [wakeOffset_cons, if_neg hrp, wakeOffset_cons, if_neg hrp, hd2p, hcong r,
            ih n1 procs hndr hcr hcl (fun x hx => hlen x (List.mem_cons_of_mem p hx)) r hr2]

theorem advUntil_append_none (p : ProcId) :
    ∀ l1 l2 : List Ev, advUntil p l1 = none →
      advUntil p (l1 ++ l2) = (advUntil p l2).map (sumAdv l1 + ·) := by
  intro l1
  induction l1 with
  | nil =>
      intro l2 _
      simp only [List.nil_append, sumAdv]
      cases advUntil p l2 <;> simp
  | cons e rest ih =>
      intro l2 h1
      cases e with
      | settled t =>
          simp only [advUntil] at h1
          cases hA : advUntil p l2 <;>
            simp [advUntil, sumAdv, ih l2 h1, hA]
      | advanced d =>
          simp only [advUntil, Option.map_eq_none'] at h1
          cases hA : advUntil p l2 <;>
            simp [advUntil, sumAdv, ih l2 h1, hA, Nat.add_assoc]
      | resumed q t =>
          simp only [advUntil] at h1
          by_cases hqp : q = p
          · rw [if_pos hqp] at h1
            cases h1
          · rw [if_neg hqp] at h1
            cases hA : advUntil p l2 <;>
              simp [advUntil, sumAdv, hqp, ih l2 h1, hA]

/-- First-resumption offsets through one dequeue-and-resume: the dequeued
head is resumed after exactly its relative delay of advancement; any other
process's first resumption in the continuation is pushed back by that
delay. -/
theorem dequeueResume_advUntil_append (s1 : Sim) (c : ProcId) (rest : List ProcId)
    (p : ProcId) (l2 : List Ev) (hq : s1.queue = c :: rest) :
    advUntil p ((dequeueResume s1).2 ++ l2) =
      if c = p then some ((procOf s1.procs c).delay)
      else (advUntil p l2).map ((procOf s1.procs c).delay + ·) := by
  rw [(dequeueResume_eq s1 c rest hq).1]
  by_cases hd : (procOf s1.procs c).delay ≠ 0
  · rw [if_pos hd]
    by_cases hcp : c = p
    · subst hcp
      simp [advUntil]
    · simp [advUntil, hcp]
  · rw [if_neg hd]
    have hd0 : (procOf s1.procs c).delay = 0 := by omega
    by_cases hcp : c = p
    · subst hcp
      simp [advUntil, hd0]
    · cases hA : advUntil p l2 <;> simp [advUntil, hcp, hd0, hA]

/-- A slice of process `c` neither disturbs another process `p`'s wake
offset (unless `finish` empties the queue, dropping `p`) nor gives `p` any
sensitivity hook. -/
theorem runSlice_offset :
    ∀ (k : Proc) (s : Sim) (c p : ProcId), c ≠ p → c ∉ s.queue → hookFree s p →
      s.queue.Nodup → c < s.procs.length → (∀ r ∈ s.queue, r < s.procs.length) →
      hookFree (runSlice s c k) p ∧
      (p ∉ (runSlice s c k).queue ∨
        (p ∈ s.queue ∧ p ∈ (runSlice s c k).queue ∧
          wakeOffset (runSlice s c k).procs (runSlice s c k).queue p =
            wakeOffset s.procs s.queue p)) := by
  intro k
  induction k with
  | ret =>
      intro s c p hcp hcq hf hnd hcl hb
      simp only [runSlice]
      refine ⟨fun h hm => hf h (by rwa [allHooks_setProg] at hm), ?_⟩
      by_cases hp : p ∈ s.queue
      · right
        refine ⟨hp, by rwa [setProg_queue], ?_⟩
        rw [setProg_queue]
        exact wakeOffset_congr_on s.procs (setProg s c Proc.ret).procs s.queue p
          (fun y _ => setProg_delay s c Proc.ret y)
      · left
        rwa [setProg_queue]
  | set sg v k ih =>
      intro s c p hcp hcq hf hnd hcl hb
      simp only [runSlice]
      obtain ⟨h1, h2⟩ := ih (setSignal s sg v) c p hcp
        (by rwa [setSignal_queue])
        (fun h hm => hf h (by rwa [allHooks_setSignal] at hm))
        (by rwa [setSignal_queue])
        (by rwa [setSignal_procs])
        (by rw [setSignal_queue, setSignal_procs]; exact hb)
      refine ⟨h1, ?_⟩
      rcases h2 with h2 | ⟨ha, hb2, hc2⟩
      · exact Or.inl h2
      · refine Or.inr ⟨by rwa [setSignal_queue] at ha, hb2, ?_⟩
        rw [hc2, setSignal_queue, setSignal_procs]
  | fin k ih =>
      intro s c p hcp hcq hf hnd hcl hb
      simp only [runSlice]
      obtain ⟨h1, h2⟩ := ih (finishSim s) c p hcp (List.not_mem_nil c)
        (fun h hm => hf h hm) List.nodup_nil hcl
        (fun r hr => absurd hr (List.not_mem_nil r))
      refine ⟨h1, ?_⟩
      rcases h2 with h2 | ⟨ha, -, -⟩
      · exact Or.inl h2
      · exact absurd ha (List.not_mem_nil p)
  | delay n k0 _ =>
      intro s c p hcp hcq hf hnd hcl hb
      simp only [runSlice]
      refine ⟨fun h hm =>
        hf h (by rwa [allHooks_delayCall, allHooks_setProg] at hm), ?_⟩
      by_cases hp : p ∈ s.queue
      · right
        have hmem : p ∈ (insertGo c (n % U64) s.queue (setProg s c k0).procs).1 :=
          (insertGo_mem_iff c (n % U64) s.queue (setProg s c k0).procs p).2 (Or.inr hp)
        refine ⟨hp, hmem, ?_⟩
        have hoth := insertGo_offset_other c (n % U64) s.queue (setProg s c k0).procs
          hnd hcq (by rw [setProg_procs_length]; exact hcl)
          (fun r hr => by rw [setProg_procs_length]; exact hb r hr) p hp
        show wakeOffset (insertGo c (n % U64) s.queue (setProg s c k0).procs).2
          (insertGo c (n % U64) s.queue (setProg s c k0).procs).1 p =
          wakeOffset s.procs s.queue p
        rw [hoth]
        exact wakeOffset_congr_on s.procs (setProg s c k0).procs s.queue p
          (fun y _ => setProg_delay s c k0 y)
      · left
        show p ∉ (insertGo c (n % U64) s.queue (setProg s c k0).procs).1
        intro hc
        rcases (insertGo_mem_iff c (n % U64) s.queue (setProg s c k0).procs p).1 hc
          with h | h
        · exact hcp h.symm
        · exact hp h
  | wait hs0 k0 _ =>
      intro s c p hcp hcq hf hnd hcl hb
      simp only [runSlice]
      refine ⟨?_, ?_⟩
      · intro h hm
        rcases allHooks_addHooks_mem c hs0 (setProg s c k0) h hm with hm2 | hm2
        · exact hf h (by rwa [allHooks_setProg] at hm2)
        · rw [hm2]
          exact hcp
      · by_cases hp : p ∈ s.queue
        · right
          refine ⟨hp, by rwa [addHooks_queue, setProg_queue], ?_⟩
          rw [addHooks_queue, addHooks_procs, setProg_queue]
          exact wakeOffset_congr_on s.procs (setProg s c k0).procs s.queue p
            (fun y _ => setProg_delay s c k0 y)
        · left
          rwa [addHooks_queue, setProg_queue]

/-- Through one dequeue-and-resume of head `c`, a hookless other process `p`
either leaves the queue (only `finish` does that) or keeps exactly the wake
offset it had among the remaining queued processes; it acquires no hook. -/
theorem dequeueResume_offset (s1 : Sim) (c : ProcId) (rest : List ProcId) (p : ProcId)
    (hq : s1.queue = c :: rest) (hInv : Inv s1) (hf : hookFree s1 p) (hcp : c ≠ p) :
    hookFree (dequeueResume s1).1 p ∧
    (p ∉ (dequeueResume s1).1.queue ∨
      (p ∈ rest ∧ p ∈ (dequeueResume s1).1.queue ∧
        wakeOffset (dequeueResume s1).1.procs (dequeueResume s1).1.queue p =
          wakeOffset s1.procs rest p)) := by
  obtain ⟨hnd, hgs, hhi, hqi⟩ := hInv
  have hcl : c < s1.procs.length := hqi c (by rw [hq]; exact List.mem_cons_self _ _)
  have hcnotin : c ∉ rest := by
    rw [hq] at hnd
    exact (List.nodup_cons.1 hnd).1
  have hndrest : rest.Nodup := by
    rw [hq] at hnd
    exact (List.nodup_cons.1 hnd).2
  simp only [dequeueResume, hq]
  set st2 : Sim := ({ s1 with
    queue := rest
    cur := some c
    procs := s1.procs.set c { procOf s1.procs c with pnext := none } } : Sim) with hst2
  set st3 : Sim := if (procOf st2.procs c).delay ≠ 0 then
      { st2 with time := (st2.time + (procOf st2.procs c).delay) % U64 } else st2 with hst3
  have h3q : st3.queue = rest := by rw [hst3]; split <;> rfl
  have h3p : st3.procs = st2.procs := by rw [hst3]; split <;> rfl
  have h3A : allHooks st3 = allHooks s1 := by rw [hst3]; split <;> rfl
  set st4 : Sim := stripHooks st3 c with hst4
  have h4q : st4.queue = rest := by rw [hst4]; exact h3q
  have h4p : st4.procs = st2.procs := by rw [hst4]; exact h3p
  have h4f : hookFree st4 p := by
    intro h hm
    have := (allHooks_stripHooks_mem st3 c h hm).1
    rw [h3A] at this
    exact hf h this
  have h4delay : ∀ y, (procOf st4.procs y).delay = (procOf s1.procs y).delay := by
    intro y
    rw [h4p, hst2]
    exact procOf_set_pnextOnly_delay s1.procs c y none
  obtain ⟨h1, h2⟩ := runSlice_offset (procOf st4.procs c).prog st4 c p hcp
    (by rw [h4q]; exact hcnotin) h4f (by rw [h4q]; exact hndrest)
    (by rw [h4p, hst2]; simpa using hcl)
    (by
      rw [h4q]
      intro r hr
      rw [h4p, hst2]
      simpa using hqi r (by rw [hq]; exact List.mem_cons_of_mem c hr))
  refine ⟨h1, ?_⟩
  rcases h2 with h2 | ⟨ha, hb2, hc2⟩
  · exact Or.inl h2
  · refine Or.inr ⟨by rwa [h4q] at ha, hb2, ?_⟩
    rw [hc2, h4q]
    exact wakeOffset_congr_on s1.procs st4.procs rest p (fun y _ => h4delay y)

/-- A hookless, unqueued process is never touched by a loop iteration: it
stays unqueued and hookless and is not resumed in the iteration's trace. -/
theorem runStep_notouch (s : Sim) (p : ProcId) (hInv : Inv s)
    (hq : p ∉ s.queue) (hf : hookFree s p) :
    p ∉ (runStep s).1.queue ∧ hookFree (runStep s).1 p ∧
      advUntil p (runStep s).2 = none := by
  rcases hqe : s.queue with _ | ⟨c, rest⟩
  · simp only [runStep, hqe]
    exact ⟨List.not_mem_nil p, hf, rfl⟩
  · have hcp : c ≠ p := by
      intro hc
      subst hc
      exact hq (by rw [hqe]; exact List.mem_cons_self _ _)
    by_cases hd : (procOf s.procs c).delay ≠ 0
    · rw [runStep_eq_pos s c rest hqe hd]
      have hne : s.queue ≠ [] := by rw [hqe]; exact List.cons_ne_nil c rest
      have hInv2 := (settleSignals_inv s hInv hne).1
      obtain ⟨pre, hqq, hpre⟩ := settleSignals_ext s
      have hq2 : p ∉ (settleSignals s).queue := by
        rw [hqq]
        intro hc
        rcases List.mem_append.1 hc with hc | hc
        · obtain ⟨sg, hsg, h, hmem, heq⟩ := hpre p hc
          exact hf h (mem_allHooks_of_mem_hookList s sg h hmem) heq
        · exact hq hc
      have hf2 : hookFree (settleSignals s) p :=
        fun h hm => hf h (by rwa [allHooks_settleSignals] at hm)
      rcases hqe2 : (settleSignals s).queue with _ | ⟨c2, rest2⟩
      · exact absurd hqe2 (settleSignals_queue_nonempty s hne)
      · have hc2p : c2 ≠ p := by
          intro hc
          subst hc
          exact hq2 (by rw [hqe2]; exact List.mem_cons_self _ _)
        obtain ⟨h1, h2⟩ :=
          dequeueResume_offset (settleSignals s) c2 rest2 p hqe2 hInv2 hf2 hc2p
        have hout : p ∉ (dequeueResume (settleSignals s)).1.queue := by
          rcases h2 with h2 | ⟨ha, -, -⟩
          · exact h2
          · exact absurd (by rw [hqe2]; exact List.mem_cons_of_mem c2 ha) hq2
        refine ⟨hout, h1, ?_⟩
        show advUntil p ((dequeueResume (settleSignals s)).2) = none
        have haux := dequeueResume_advUntil_append (settleSignals s) c2 rest2 p [] hqe2
        rw [if_neg hc2p] at haux
        rw [← List.append_nil ((dequeueResume (settleSignals s)).2), haux]
        rfl
    · rw [runStep_eq_zero s c rest hqe (by omega)]
      obtain ⟨h1, h2⟩ := dequeueResume_offset s c rest p hqe hInv hf hcp
      have hout : p ∉ (dequeueResume s).1.queue := by
        rcases h2 with h2 | ⟨ha, -, -⟩
        · exact h2
        · exact absurd (by rw [hqe]; exact List.mem_cons_of_mem c ha) hq
      refine ⟨hout, h1, ?_⟩
      have haux := dequeueResume_advUntil_append s c rest p [] hqe
      rw [if_neg hcp] at haux
      rw [← List.append_nil ((dequeueResume s).2), haux]
      rfl

/-- A hookless, unqueued process is never resumed by the remaining run. -/
theorem runLoop_no_resume :
    ∀ (fuel : Nat) (s : Sim) (p : ProcId), Inv s → p ∉ s.queue → hookFree s p →
      advUntil p (runLoop s fuel).2 = none := by
  intro fuel
  induction fuel with
  | zero => intro s p _ _ _; rfl
  | succ fuel ih =>
      intro s p hInv hq hf
      rcases hqe : s.queue with _ | ⟨c, rest⟩
      · rw [runLoop_succ_nil s fuel hqe]
        rfl
      · rw [runLoop_succ_cons s fuel c rest hqe]
        obtain ⟨h1, h2, h3⟩ := runStep_notouch s p hInv hq hf
        show advUntil p ((runStep s).2 ++ (runLoop (runStep s).1 fuel).2) = none
        rw [advUntil_append_none p _ _ h3,
          ih (runStep s).1 p (runStep_inv s hInv) h1 h2]
        rfl

/-- Dequeue-and-resume step of the first-resumption bound: if the run after
one dequeue-and-resume first resumes `p` after `n2` ticks of advancement,
then `p`'s wake offset in the pre-step queue is at most `n2`. -/
theorem dequeueResume_le_aux (fuel : Nat)
    (IH : ∀ (s : Sim) (p : ProcId) (n2 : Nat), Inv s → p ∈ s.queue → hookFree s p →
      advUntil p (runLoop s fuel).2 = some n2 → wakeOffset s.procs s.queue p ≤ n2)
    (s1 : Sim) (p : ProcId) (n2 : Nat) (hInv : Inv s1) (hp : p ∈ s1.queue)
    (hf : hookFree s1 p)
    (hadv : advUntil p
      ((dequeueResume s1).2 ++ (runLoop (dequeueResume s1).1 fuel).2) = some n2) :
    wakeOffset s1.procs s1.queue p ≤ n2 := by
  rcases hq : s1.queue with _ | ⟨c, rest⟩
  · rw [hq] at hp
    exact absurd hp (List.not_mem_nil p)
  · rw [dequeueResume_advUntil_append s1 c rest p _ hq] at hadv
    by_cases hcp : c = p
    · rw [if_pos hcp] at hadv
      have hn2 : (procOf s1.procs c).delay = n2 := Option.some.inj hadv
      rw [wakeOffset_cons, if_pos hcp, hn2]
    · rw [if_neg hcp] at hadv
      obtain ⟨m, hm, hmn⟩ := Option.map_eq_some'.1 hadv
      obtain ⟨h1, h2⟩ := dequeueResume_offset s1 c rest p hq hInv hf hcp
      rcases h2 with h2 | ⟨hpr, hpm, hoff⟩
      · have := runLoop_no_resume fuel (dequeueResume s1).1 p
          (dequeueResume_inv s1 hInv) h2 h1
        rw [this] at hm
        cases hm
      · have hle := IH (dequeueResume s1).1 p m (dequeueResume_inv s1 hInv) hpm h1 hm
        rw [hoff] at hle
        rw [wakeOffset_cons, if_neg hcp]
        omega

/-- First-resumption lower bound: if the run first resumes a queued,
hookless process `p` after `n2` ticks of clock advancement, then `n2` is at
least `p`'s wake offset (the sum of relative delays up to `p` in the
queue). -/
theorem runLoop_first_resume :
    ∀ (fuel : Nat) (s : Sim) (p : ProcId) (n2 : Nat), Inv s → p ∈ s.queue →
      hookFree s p → advUntil p (runLoop s fuel).2 = some n2 →
      wakeOffset s.procs s.queue p ≤ n2 := by
  intro fuel
  induction fuel with
  | zero =>
      intro s p n2 _ _ _ hadv
      cases hadv
  | succ fuel ih =>
      intro s p n2 hInv hp hf hadv
      rcases hq : s.queue with _ | ⟨c, rest⟩
      · rw [hq] at hp
        exact absurd hp (List.not_mem_nil p)
      · rw [runLoop_succ_cons s fuel c rest hq] at hadv
        by_cases hd : (procOf s.procs c).delay ≠ 0
        · rw [runStep_eq_pos s c rest hq hd] at hadv
          have hne : s.queue ≠ [] := by rw [hq]; exact List.cons_ne_nil c rest
          have hInv2 := (settleSignals_inv s hInv hne).1
          obtain ⟨pre, hqq, hpre⟩ := settleSignals_ext s
          have hppre : p ∉ pre := by
            intro hc
            obtain ⟨sg, hsg, h, hmem, heq⟩ := hpre p hc
            exact hf h (mem_allHooks_of_mem_hookList s sg h hmem) heq
          have hp2 : p ∈ (settleSignals s).queue := by
            rw [hqq]
            exact List.mem_append.2 (Or.inr hp)
          have hf2 : hookFree (settleSignals s) p :=
            fun h hm => hf h (by rwa [allHooks_settleSignals] at hm)
          have hadv2 : advUntil p ((dequeueResume (settleSignals s)).2 ++
              (runLoop (dequeueResume (settleSignals s)).1 fuel).2) = some n2 := by
            rw [List.cons_append] at hadv
            exact hadv
          have hle := dequeueResume_le_aux fuel ih (settleSignals s) p n2 hInv2
            hp2 hf2 hadv2
          have hcg : wakeOffset (settleSignals s).procs (settleSignals s).queue p =
              wakeOffset s.procs (pre ++ s.queue) p := by
            rw [hqq]
            exact wakeOffset_congr_on s.procs (settleSignals s).procs (pre ++ s.queue) p
              (fun y _ => settleSignals_delay s y)
          have hge := wakeOffset_append_ge s.procs pre s.queue p hppre
          rw [hcg] at hle
          rw [hq] at hle hge
          omega
        · rw [runStep_eq_zero s c rest hq (by omega)] at hadv
          rw [← hq]
          exact dequeueResume_le_aux fuel ih s p n2 hInv hp hf hadv

/-- C7 counterexample: the claim promises resumption "at a logical time
≥ T+N".  In the run of `exC7progs`, process 0 is resumed at clock
`T = 2^64 - 2` and during that slice calls `delay(3)` (the slice does not
change the clock, so the call happens with the clock reading `T`); its next
resumption is at clock 1 — the `uint64` clock wrapped — and `1 < T + 3`.  So
the resumption time, as read from the wrapping clock, is not `≥ T+N`. -/
theorem c7_resume_time_counterexample :
    resumedClocks (simRun [] exC7progs 10).2 = [0, 18446744073709551614, 1] ∧
    (1 : Nat) < 18446744073709551614 + 3 := by
  constructor
  · decide
  · decide

/-- C7 (amended): `delay(N)` inserts the caller with wake offset exactly
`N mod 2^64` ticks of future clock advancement — the walk consumes
predecessors' relative delays and decrements the insertion successor's
delay — and the wake offset of every process already queued is unchanged by
the insertion.  Consequently the caller's next resumption happens only
after at least `N mod 2^64` ticks of clock advancement (the general bound:
a queued, hookless process is first resumed only after at least its wake
offset of advancement).  The resumption *clock reading* is the `uint64` sum
`(T + advancement) mod 2^64`, which is `≥ T+N` only in the absence of
wrap-around. -/
theorem c7_delay_wake :
    (∀ (s : Sim) (p : ProcId) (n : Nat), s.queue.Nodup → p ∉ s.queue →
      p < s.procs.length → (∀ r ∈ s.queue, r < s.procs.length) →
      wakeOffset (delayCall s p n).procs (delayCall s p n).queue p = n % U64 ∧
      ∀ r ∈ s.queue, wakeOffset (delayCall s p n).procs (delayCall s p n).queue r =
        wakeOffset s.procs s.queue r) ∧
    (∀ (fuel : Nat) (s : Sim) (p : ProcId) (n2 : Nat), Inv s → p ∈ s.queue →
      hookFree s p → advUntil p (runLoop s fuel).2 = some n2 →
      wakeOffset s.procs s.queue p ≤ n2) := by
  constructor
  · intro s p n hnd hpq hpl hb
    constructor
    · show wakeOffset (insertGo p (n % U64) s.queue s.procs).2
        (insertGo p (n % U64) s.queue s.procs).1 p = n % U64
      exact insertGo_offset_self p (n % U64) s.queue s.procs hnd hpq hpl hb
    · intro r hr
      show wakeOffset (insertGo p (n % U64) s.queue s.procs).2
        (insertGo p (n % U64) s.queue s.procs).1 r = wakeOffset s.procs s.queue r
      exact insertGo_offset_other p (n % U64) s.queue s.procs hnd hpq hpl hb r hr
  · exact runLoop_first_resume

/-- Witness for C7 (amended): in `exC7dstate` (process 0 queued 5 out),
`delay(7)` by process 2 yields queue `[0, 2]` with process 2 at wake offset
7 and process 0 still at offset 5; and in the `exC7progs` run, at the state
reached after two iterations (process 0 re-queued with relative delay 3 by
its `delay(3)` call), the first resumption of process 0 comes after exactly
3 ticks of advancement, at least its wake offset 3. -/
theorem c7_delay_wake_witness :
    (wakeOffset (delayCall exC7dstate 2 7).procs (delayCall exC7dstate 2 7).queue 2 =
        7 % U64 ∧
      wakeOffset (delayCall exC7dstate 2 7).procs (delayCall exC7dstate 2 7).queue 0 =
        wakeOffset exC7dstate.procs exC7dstate.queue 0) ∧
    wakeOffset (reachState [] exC7progs 2).procs (reachState [] exC7progs 2).queue 0 ≤ 3 := by
  refine ⟨?_, ?_⟩
  · have h := c7_delay_wake.1 exC7dstate 2 7 (by decide) (by decide) (by decide) (by decide)
    exact ⟨h.1, h.2 0 (by decide)⟩
  · exact c7_delay_wake.2 10 (reachState [] exC7progs 2) 0 3
      (inv_reach [] exC7progs 2) (by decide)
      (by intro h hm; simp only [show allHooks (reachState [] exC7progs 2) = []
        from by decide] at hm; exact absurd hm (List.not_mem_nil h))
      (by decide)

end CoroSim
